import Mathlib

/-!
Verification of the binary primitive codec modules (`typedbuffer` and the
byte pack/unpack module) of the repository.

Modelling conventions, used consistently below:
* A `Uint8Array` is a `List Nat` whose elements are below 256 (stated as a
  hypothesis where it matters).  Out-of-bounds reads yield `undefined` in
  JavaScript; wherever such a read is subsequently stored into a typed array
  it coerces to `0`, which is what the model returns.
* JavaScript numbers are modelled as `Int`.  The bitwise operators `&`, `|`,
  `<<`, `>>` of JavaScript first convert their operands to 32-bit two's
  complement integers (`ToInt32`); the helpers `toInt32`, `js_and`, `js_shl7`,
  `js_shr7` reproduce that conversion explicitly.
* A JavaScript string is modelled by its UTF-8 byte sequence (`List Nat`):
  `TextEncoder.encode` / `TextDecoder.decode` form the bijection between
  well-formed strings and their UTF-8 bytes, so the codec is studied directly
  on the byte side of that bijection.
* Values of the float kinds `f4`/`f8` are modelled by their IEEE-754 bit
  patterns (a `Nat` below `2^32` resp. `2^64`): a `Float64Array` cell stores
  exactly the 8 bytes of the pattern, so the byte-level codec is the identity
  on patterns; the rounding of arbitrary doubles into `f4` cells is outside
  the embedding and a well-typed `f4` value is an exactly representable one,
  identified with its pattern.
* The host endianness probe `env_le` is a module-level constant computed from
  the machine; it is threaded through the model as an explicit `Bool`
  parameter `le`, and the theorems hold for either value.
-/

namespace BytePack

/-- ToInt32 conversion of JavaScript: reduce modulo `2^32` into the two's
complement range `[-2^31, 2^31)`. -/
def toInt32 (x : Int) : Int := (x + 2 ^ 31) % 2 ^ 32 - 2 ^ 31

/-- two's complement 32-bit pattern of a JavaScript number, as a `Nat`
below `2^32` (used to implement the bitwise operators). -/
def toBits32 (x : Int) : Nat := (x % 2 ^ 32).toNat

/-- JavaScript `x & y`: bitwise and on the 32-bit patterns, reinterpreted as
a signed 32-bit integer. -/
def js_and (x y : Int) : Int := toInt32 ((toBits32 x &&& toBits32 y : Nat) : Int)

/-- JavaScript `x << 7` (used by the variable-length decoders as
`value <<= 7`): multiply and wrap into the signed 32-bit range. -/
def js_shl7 (x : Int) : Int := toInt32 (x * 128)

/-- JavaScript `x >> 7` (used by the variable-length encoders as `v >>= 7`):
arithmetic shift of the 32-bit value, i.e. floor division by 128. -/
def js_shr7 (x : Int) : Int := (toInt32 x).fdiv 128

/-- reading `buf[idx]` from a `Uint8Array` where the result is then used as a
byte: an out-of-range or negative index yields `undefined`, which coerces
to 0. -/
def jsGet (l : List Nat) (idx : Int) : Nat :=
  if idx < 0 then 0 else l.getD idx.toNat 0

/-- `TypedArray.prototype.subarray(begin, end)` / `slice` index resolution for
one relative index: negative values count from the end, and the result is
clamped into `[0, length]`. -/
def jsRelIndex (len : Nat) (x : Int) : Nat :=
  if x < 0 then ((len : Int) + x).toNat else if x.toNat ≤ len then x.toNat else len

/-- contents of `buf.subarray(b, e)` (also of `buf.slice(b, e)`, which copies
the same range). -/
def jsSubarray (l : List Nat) (b e : Int) : List Nat :=
  (l.take (jsRelIndex l.length e)).drop (jsRelIndex l.length b)

/-- contents of `buf.subarray(b)` / `buf.slice(b)` with the end argument
`undefined`: the range runs to the end of the buffer. -/
def jsSubarrayToEnd (l : List Nat) (b : Int) : List Nat :=
  l.drop (jsRelIndex l.length b)

/-- `TypedArray.prototype.indexOf(v, from)`: first index at or after `from`
holding `v`, and `-1` when there is none. -/
def js_indexOf (l : List Nat) (v : Nat) (from_ : Nat) : Int :=
  match (l.drop from_).findIdx? (· = v) with
  | some i => ((from_ + i : Nat) : Int)
  | none => -1

/-! ## The `typedbuffer` module -/

/-- element descriptor extracted from a JavaScript typed array constructor:
the width of one cell in bytes, the conversion applied when a number is
written into a cell (producing the cell's bit pattern, a `Nat` below
`2 ^ (8 * bytes_per_element)`), and the value read back from a pattern.
`is_uint8` records whether the constructor is `Uint8Array` itself (the
encoder returns such an array without copying). -/
structure TypedArrayCtor where
  bytes_per_element : Nat
  store : Int → Nat
  load : Nat → Int
  is_uint8 : Bool

/-- `Uint8Array`: write = ToUint8 (reduce mod `2^8`). -/
def uint8Ctor : TypedArrayCtor :=
  ⟨1, fun v => (v % 256).toNat, fun p => (p : Int), true⟩

/-- `Uint8ClampedArray`: write clamps into `[0, 255]`. -/
def uint8ClampedCtor : TypedArrayCtor :=
  ⟨1, fun v => (max 0 (min 255 v)).toNat, fun p => (p : Int), false⟩

/-- `Uint16Array`. -/
def uint16Ctor : TypedArrayCtor :=
  ⟨2, fun v => (v % 2 ^ 16).toNat, fun p => (p : Int), false⟩

/-- `Uint32Array`. -/
def uint32Ctor : TypedArrayCtor :=
  ⟨4, fun v => (v % 2 ^ 32).toNat, fun p => (p : Int), false⟩

/-- `Int8Array`: the cell pattern is the two's complement byte. -/
def int8Ctor : TypedArrayCtor :=
  ⟨1, fun v => (v % 256).toNat,
    fun p => if p < 128 then (p : Int) else (p : Int) - 256, false⟩

/-- `Int16Array`. -/
def int16Ctor : TypedArrayCtor :=
  ⟨2, fun v => (v % 2 ^ 16).toNat,
    fun p => if p < 2 ^ 15 then (p : Int) else (p : Int) - 2 ^ 16, false⟩

/-- `Int32Array`. -/
def int32Ctor : TypedArrayCtor :=
  ⟨4, fun v => (v % 2 ^ 32).toNat,
    fun p => if p < 2 ^ 31 then (p : Int) else (p : Int) - 2 ^ 32, false⟩

/-- `Float32Array`, on the bit-pattern reading of float values (see the
module comment): a cell holds the 32-bit IEEE-754 pattern. -/
def float32Ctor : TypedArrayCtor :=
  ⟨4, fun v => (v % 2 ^ 32).toNat, fun p => (p : Int), false⟩

/-- `Float64Array`, on the bit-pattern reading of float values. -/
def float64Ctor : TypedArrayCtor :=
  ⟨8, fun v => (v % 2 ^ 64).toNat, fun p => (p : Int), false⟩

/-- `typed_array_constructor_of(type)`: the `type[2] === "c"` test selects the
clamped constructor, otherwise the string is trimmed to its first two
characters and matched; the `default` branch falls back to `Uint8Array`
(and logs an error, modelled by `typed_array_constructor_logs_error`).
A kind string is modelled by its character list; reading `type[i]` past the
end of the string yields `undefined`, modelled by the placeholder `'?'`
(which, like `undefined`, matches none of the cases). -/
def typed_array_constructor_of (type : List Char) : TypedArrayCtor :=
  if type.getD 2 '?' = 'c' then uint8ClampedCtor
  else
    let t2 := [type.getD 0 '?', type.getD 1 '?']
    if t2 = "u1".toList then uint8Ctor
    else if t2 = "u2".toList then uint16Ctor
    else if t2 = "u4".toList then uint32Ctor
    else if t2 = "i1".toList then int8Ctor
    else if t2 = "i2".toList then int16Ctor
    else if t2 = "i4".toList then int32Ctor
    else if t2 = "f4".toList then float32Ctor
    else if t2 = "f8".toList then float64Ctor
    else uint8Ctor

/-- the diagnostic side channel of `typed_array_constructor_of`: `true`
exactly when the source's `default` branch runs `console.error` about an
unrecognized typed array type. -/
def typed_array_constructor_logs_error (type : List Char) : Bool :=
  if type.getD 2 '?' = 'c' then false
  else
    let t2 := [type.getD 0 '?', type.getD 1 '?']
    decide (t2 ∉ ["u1".toList, "u2".toList, "u4".toList, "i1".toList,
      "i2".toList, "i4".toList, "f4".toList, "f8".toList])

/-- one step of `swapEndianess`: `buf.subarray(i, j).reverse()` performed in
place (the subarray clamps its bounds to the buffer length). -/
def reverseRange (l : List Nat) (i j : Nat) : List Nat :=
  l.take i ++ ((l.take j).drop i).reverse ++ l.drop j

/-- loop of `swapEndianess`: `for (let i = 0; i < len; i += bytesize)` reverse
the element at `i`.  The loop runs `⌈len / bytesize⌉` times; that trip count
is the structural fuel. -/
def swapEndianess_go (bs : Nat) : Nat → Nat → List Nat → List Nat
  | 0, _, acc => acc
  | f + 1, i, acc => swapEndianess_go bs f (i + bs) (reverseRange acc i (i + bs))

/-- `swapEndianess(buf, bytesize)`: reverse the byte order of every
`bytesize`-wide element in place; the model returns the buffer's final
contents.  (With `bytesize = 0` the source loop would not terminate; callers
pass widths in `{1,2,4,8}`; the model's trip count `⌈len / 0⌉ = 0` then
leaves the buffer unchanged.) -/
def swapEndianess (buf : List Nat) (bytesize : Nat) : List Nat :=
  swapEndianess_go bytesize ((buf.length + bytesize - 1) / bytesize) 0 buf

/-- inner loop of `swapEndianessFast`:
`for (let i = offset; i < len + offset; i += bs) swapped_buf[i] = buf[i + a]`.
The state is the pair (contents of `buf`, contents of `swapped_buf`); the
body writes only the second component, reading the first.  Writes with
`i ≥ len` are ignored (as on a typed array); `List.set` has exactly that
behaviour.  The loop runs `⌈len / bs⌉` times (counting `i` from `offset`
up to `len + offset` in steps of `bs`), which is the structural fuel. -/
def swapFast_inner (bs : Nat) (a : Int) : Nat → Nat → List Nat × List Nat → List Nat × List Nat
  | 0, _, st => st
  | f + 1, i, st =>
    swapFast_inner bs a f (i + bs) (st.1, st.2.set i (jsGet st.1 ((i : Int) + a)))

/-- outer loop of `swapEndianessFast`: one inner pass per
`offset ∈ [0, bs)`, with `a = bs - 1 - offset * 2`. -/
def swapFast_outer (bs len : Nat) : Nat → Nat → List Nat × List Nat → List Nat × List Nat
  | 0, _, st => st
  | f + 1, offset, st =>
    swapFast_outer bs len f (offset + 1)
      (swapFast_inner bs ((bs : Int) - 1 - 2 * offset) ((len + bs - 1) / bs) offset st)

/-- `swapEndianessFast(buf, bytesize)` including its store: the result pair is
(final contents of the argument `buf`, contents of the freshly allocated
`swapped_buf`, initially all zero). -/
def swapEndianessFast_state (buf : List Nat) (bytesize : Nat) : List Nat × List Nat :=
  let len := buf.length
  swapFast_outer bytesize len bytesize 0 (buf, List.replicate len 0)

/-- value returned by `swapEndianessFast(buf, bytesize)`. -/
def swapEndianessFast (buf : List Nat) (bytesize : Nat) : List Nat :=
  (swapEndianessFast_state buf bytesize).2

/-- specification helper: the `lsb_to_msb` chunk list of the uvar encoder at
the `Nat` level (the JavaScript 32-bit operators coincide with exact
arithmetic on the values the encoder is specified for).  Used only in
proofs, as the reference shape of `uvar_lsb_to_msb`. -/
def natChunksLE : Nat → Nat → List Nat
  | 0, n => [n % 128 + 128]
  | fuel + 1, n =>
    if n / 128 > 0 then (n % 128 + 128) :: natChunksLE fuel (n / 128) else [n % 128 + 128]

/-- specification helper: the `lsb_to_msb` chunk list of the ivar encoder at
the `Nat` level; `sb` is the sign-flag byte pattern (`0b11000000` for
negative, `0b10000000` otherwise).  Used only in proofs. -/
def natIChunksLE (sb : Nat) : Nat → Nat → List Nat
  | 0, n => [n % 64 ||| sb]
  | fuel + 1, n =>
    if n > 63 then (n % 128 + 128) :: natIChunksLE sb fuel (n / 128) else [n % 64 ||| sb]

/-- specification helper: the big-endian base-128 accumulation that the
variable-length decoders perform, at the `Nat` level.  Used only in
proofs. -/
def digitsVal (acc : Nat) : List Nat → Nat
  | [] => acc
  | c :: r => digitsVal (acc * 128 + c % 128) r

/-- specification helper: blockwise reversal of `f` consecutive `bs`-byte
blocks, the intended effect of both endianness-swap routines.  Used only in
proofs. -/
def blockRev (bs : Nat) : Nat → List Nat → List Nat
  | 0, rest => rest
  | f + 1, rest => (rest.take bs).reverse ++ blockRev bs f (rest.drop bs)

/-- `resolveRange(start, end, length, offset)`.  Absent arguments are `none`.
The result mirrors the source's 3-tuple: when `length` is absent the second
and third components stay absent where the source leaves them `undefined`. -/
def resolveRange (start end_ length offset : Option Int) : Int × Option Int × Option Int :=
  let start := start.getD 0
  let offset := offset.getD 0
  match length with
  | none => (start + offset, end_.map (· + offset), none)
  | some length =>
    let end_ := end_.getD length
    let start := start + (if start ≥ 0 then 0 else length)
    let end_ := end_ + (if end_ ≥ 0 then 0 else length)
    let span := end_ - start
    (start + offset, some (end_ + offset), some (if span ≥ 0 then span else 0))

/-! ## The byte pack/unpack module -/

/-- a primitive JavaScript value as handled by `pack`/`unpack`.  Strings are
carried as their UTF-8 bytes and float values as IEEE-754 bit patterns (see
the module comment). -/
inductive JSPrim where
  | bool (b : Bool)
  | num (v : Int)
  | numArr (vs : List Int)
  | str (s : List Nat)
  | bytes (b : List Nat)
deriving DecidableEq

/-- the unchecked TypeScript cast `value as boolean` of the dispatcher; on a
value of the wrong shape the cast is junk (the dispatcher is only ever used
on well-typed values). -/
def JSPrim.asBool : JSPrim → Bool
  | .bool b => b
  | _ => false

/-- the unchecked cast `value as number`. -/
def JSPrim.asNum : JSPrim → Int
  | .num v => v
  | _ => 0

/-- the unchecked cast `value as number[]`. -/
def JSPrim.asNumArr : JSPrim → List Int
  | .numArr vs => vs
  | _ => []

/-- the unchecked cast `value as string` (UTF-8 bytes). -/
def JSPrim.asStr : JSPrim → List Nat
  | .str s => s
  | _ => []

/-- the unchecked cast `value as Uint8Array`. -/
def JSPrim.asBytes : JSPrim → List Nat
  | .bytes b => b
  | _ => []

/-- `encode_bool`: one byte, 1 for `true` and 0 for `false`. -/
def encode_bool (value : Bool) : List Nat := [if value then 1 else 0]

/-- `decode_bool`: `buf[offset] >= 1`, one byte consumed. -/
def decode_bool (buf : List Nat) (offset : Nat) : Bool × Nat :=
  (decide (buf.getD offset 0 ≥ 1), 1)

/-- `encode_cstr`: `txt_encoder.encode(value + "\u0000")`, i.e. the string's
UTF-8 bytes followed by one zero byte. -/
def encode_cstr (value : List Nat) : List Nat := value ++ [0]

/-- `decode_cstr`: `offset_end = buf.indexOf(0x00, offset)` (so `-1` when no
zero byte follows), `txt_arr = buf.subarray(offset, offset_end)`, and the
reported size is `txt_arr.length + 1`. -/
def decode_cstr (buf : List Nat) (offset : Nat) : List Nat × Nat :=
  let offset_end := js_indexOf buf 0 offset
  let txt_arr := jsSubarray buf (offset : Int) offset_end
  (txt_arr, txt_arr.length + 1)

/-- `encode_str`: the string's UTF-8 bytes. -/
def encode_str (value : List Nat) : List Nat := value

/-- `decode_str`: `buf.subarray(offset, offset + bytesize)`, running to the
buffer end when no `bytesize` is given. -/
def decode_str (buf : List Nat) (offset : Nat) (bytesize : Option Nat) : List Nat × Nat :=
  let txt_arr := match bytesize with
    | none => jsSubarrayToEnd buf (offset : Int)
    | some b => jsSubarray buf (offset : Int) ((offset + b : Nat) : Int)
  (txt_arr, txt_arr.length)

/-- `encode_bytes`: the `Uint8Array` is returned as is. -/
def encode_bytes (value : List Nat) : List Nat := value

/-- `decode_bytes`: `buf.slice(offset, offset + bytesize)`, running to the
buffer end when no `bytesize` is given. -/
def decode_bytes (buf : List Nat) (offset : Nat) (bytesize : Option Nat) : List Nat × Nat :=
  let value := match bytesize with
    | none => jsSubarrayToEnd buf (offset : Int)
    | some b => jsSubarray buf (offset : Int) ((offset + b : Nat) : Int)
  (value, value.length)

/-! ### Variable-length integers (`uvar` / `ivar`) -/

/-- inner do-while of `encode_uvar_array` for one element, building the
`lsb_to_msb` byte list: push `(v & 0b01111111) + 0b10000000`, then
`v >>= 7`, while `v > 0`.  For any input the loop terminates within six
iterations (after the first `>>= 7` the value is a 32-bit integer that loses
seven bits per step), so a structural fuel of 40 is never exhausted; the
fuel-0 branch emits the current chunk exactly like a final iteration. -/
def uvar_lsb_to_msb : Nat → Int → List Nat
  | 0, v => [(js_and v 127).toNat + 128]
  | fuel + 1, v =>
    let byte := (js_and v 127).toNat + 128
    let v2 := js_shr7 v
    if v2 > 0 then byte :: uvar_lsb_to_msb fuel v2 else [byte]

/-- one element of `encode_uvar_array`: take the absolute value, produce the
`lsb_to_msb` chunks, clear the continuation bit of the least significant
chunk (`lsb_to_msb[0] &= 0b01111111`), and emit the bytes reversed
(most significant first). -/
def encode_uvar_element (x : Int) : List Nat :=
  let v := x * (if x ≥ 0 then 1 else -1)
  let lsb_to_msb := uvar_lsb_to_msb 40 v
  (lsb_to_msb.modifyHead (· &&& 127)).reverse

/-- `encode_uvar_array`: each element's bytes, concatenated in order. -/
def encode_uvar_array (value : List Int) : List Nat :=
  (value.map encode_uvar_element).flatten

/-- `encode_uvar`: the one-element-array case. -/
def encode_uvar (value : Int) : List Nat := encode_uvar_array [value]

/-- truth of `array_length > 0` where `undefined` was replaced by
`Infinity` (modelled as `none`). -/
def alPos : Option Nat → Bool
  | none => true
  | some n => decide (0 < n)

/-- `array_length--` on the same representation. -/
def alDec : Option Nat → Option Nat
  | none => none
  | some n => some (n - 1)

/-- loop of `decode_uvar_array`:
`for (let byte = buf[offset++]; array_length > 0 && offset < buf_length + 1;
byte = buf[offset++]) { value <<= 7; value += byte & 0b01111111;
if (byte >> 7 === 0) { push value; array_length--; value = 0 } }`
followed by `offset--`.  The parameters hold the loop's live variables, with
`offset` already incremented past the byte being processed, exactly as at
the JavaScript condition check.  The condition `offset < buf_length + 1` is
carried as structural fuel `buf.length + 1 - offset`, which reaches 0 exactly
when the condition fails. -/
def decode_uvar_go (buf : List Nat) :
    Option Nat → Int → List Int → Nat → Nat → Nat → List Int × Nat
  | _, _, arr, _, offset, 0 => (arr, offset - 1)
  | al, value, arr, byte, offset, fuel + 1 =>
    if alPos al then
      let value2 := js_shl7 value + ((byte &&& 127 : Nat) : Int)
      if byte >>> 7 = 0 then
        decode_uvar_go buf (alDec al) 0 (arr ++ [value2]) (buf.getD offset 0) (offset + 1) fuel
      else
        decode_uvar_go buf al value2 arr (buf.getD offset 0) (offset + 1) fuel
    else (arr, offset - 1)

/-- `decode_uvar_array(buf, offset, array_length?)`: run the loop from
`byte = buf[offset]`, `offset + 1`, and report the values together with the
number of bytes consumed (`offset - offset_start` after the final
`offset--`). -/
def decode_uvar_array (buf : List Nat) (offset : Nat) (array_length : Option Nat) :
    List Int × Nat :=
  let r := decode_uvar_go buf array_length 0 [] (buf.getD offset 0) (offset + 1)
    (buf.length - offset)
  (r.1, r.2 - offset)

/-- `decode_uvar`: the one-element case. -/
def decode_uvar (buf : List Nat) (offset : Nat) : Int × Nat :=
  let r := decode_uvar_array buf offset (some 1)
  (r.1.getD 0 0, r.2)

/-- inner while of `encode_ivar_array` for one element of magnitude `v`:
while `v > 0b00111111` push `(v & 0b01111111) + 0b10000000` and `v >>= 7`;
finally push `(v & 0b00111111) | (sign == -1 ? 0b11000000 : 0b10000000)`.
Fuel as in `uvar_lsb_to_msb`; the fuel-0 branch emits the final sign chunk
like a terminating iteration and is never reached. -/
def ivar_lsb_to_msb (sign : Int) : Nat → Int → List Nat
  | 0, v => [(js_and v 63).toNat ||| (if sign = -1 then 192 else 128)]
  | fuel + 1, v =>
    if v > 63 then ((js_and v 127).toNat + 128) :: ivar_lsb_to_msb sign fuel (js_shr7 v)
    else [(js_and v 63).toNat ||| (if sign = -1 then 192 else 128)]

/-- one element of `encode_ivar_array`: split off the sign, encode the
magnitude with the sign folded into the most significant chunk, clear the
continuation bit of the least significant chunk and reverse. -/
def encode_ivar_element (x : Int) : List Nat :=
  let sign : Int := if x ≥ 0 then 1 else -1
  let v := x * sign
  let lsb_to_msb := ivar_lsb_to_msb sign 40 v
  (lsb_to_msb.modifyHead (· &&& 127)).reverse

/-- `encode_ivar_array`: each element's bytes, concatenated in order. -/
def encode_ivar_array (value : List Int) : List Nat :=
  (value.map encode_ivar_element).flatten

/-- `encode_ivar`: the one-element-array case. -/
def encode_ivar (value : Int) : List Nat := encode_ivar_array [value]

/-- loop of `decode_ivar_array`, structured exactly like `decode_uvar_go`
with the extra `sign` register: on the first byte of a value (`sign === 0`)
the sign is read from bit 6 and the low six bits start the magnitude;
every further byte contributes seven bits; a clear continuation bit pushes
`value * sign` and resets both registers. -/
def decode_ivar_go (buf : List Nat) :
    Option Nat → Int → Int → List Int → Nat → Nat → Nat → List Int × Nat
  | _, _, _, arr, _, offset, 0 => (arr, offset - 1)
  | al, sign, value, arr, byte, offset, fuel + 1 =>
    if alPos al then
      let sign2 := if sign = 0 then (if byte &&& 64 > 0 then -1 else 1) else sign
      let value2 :=
        if sign = 0 then ((byte &&& 63 : Nat) : Int)
        else js_shl7 value + ((byte &&& 127 : Nat) : Int)
      if byte >>> 7 = 0 then
        decode_ivar_go buf (alDec al) 0 0 (arr ++ [value2 * sign2]) (buf.getD offset 0)
          (offset + 1) fuel
      else
        decode_ivar_go buf al sign2 value2 arr (buf.getD offset 0) (offset + 1) fuel
    else (arr, offset - 1)

/-- `decode_ivar_array(buf, offset, array_length?)`. -/
def decode_ivar_array (buf : List Nat) (offset : Nat) (array_length : Option Nat) :
    List Int × Nat :=
  let r := decode_ivar_go buf array_length 0 0 [] (buf.getD offset 0) (offset + 1)
    (buf.length - offset)
  (r.1, r.2 - offset)

/-- `decode_ivar`: the one-element case. -/
def decode_ivar (buf : List Nat) (offset : Nat) : Int × Nat :=
  let r := decode_ivar_array buf offset (some 1)
  (r.1.getD 0 0, r.2)

/-! ### Fixed-width numeric arrays -/

/-- `parseInt` on the width character of a kind string (every reachable kind
carries a decimal digit there; `'v'` is dispatched before `parseInt` runs). -/
def parseIntChar (c : Char) : Nat := if c.isDigit then c.toNat - 48 else 0

/-- the `len`-byte little-endian layout of a cell pattern. -/
def natToBytesLE : Nat → Nat → List Nat
  | 0, _ => []
  | k + 1, p => p % 256 :: natToBytesLE k (p / 256)

/-- native byte layout of one cell: little endian when the host is little
endian, big endian otherwise. -/
def cellBytes (le : Bool) (bpe : Nat) (p : Nat) : List Nat :=
  if le then natToBytesLE bpe p else (natToBytesLE bpe p).reverse

/-- pattern of a cell read back from its native byte layout. -/
def bytesToCellLE : List Nat → Nat
  | [] => 0
  | b :: rest => b + 256 * bytesToCellLE rest

/-- inverse of `cellBytes` on one cell's bytes. -/
def bytesToCell (le : Bool) (bytes : List Nat) : Nat :=
  bytesToCellLE (if le then bytes else bytes.reverse)

/-- reinterpreting a byte buffer as cells of width `bpe`
(`new ctor(array_buf.buffer)`): the buffer is cut into `⌊len / bpe⌋ ` cells.
(JavaScript throws a `RangeError` when the length is not an exact multiple
of the width; the codec only reaches this with exact multiples.)  The fuel
is the buffer length, an upper bound on the cell count since `bpe ≥ 1` on
every reachable path. -/
def groupCells (le : Bool) (bpe : Nat) : Nat → List Nat → List Nat
  | 0, _ => []
  | _, [] => []
  | fuel + 1, l =>
    if bpe = 0 ∨ l.length < bpe then []
    else bytesToCell le (l.take bpe) :: groupCells le bpe fuel (l.drop bpe)

/-- `encode_number_array(value, type)`: dispatch `"uv[]"`/`"iv[]"` to the
variable-length encoders; otherwise build the typed array (cell patterns via
the constructor's write conversion), lay it out in native byte order, and
swap the endianness unless the declared endianness matches the host (or the
width is 1).  A `Uint8Array` result is returned as is before any swap. -/
def encode_number_array (le : Bool) (value : List Int) (type : List Char) : List Nat :=
  let t := type.getD 0 '?'
  let s := type.getD 1 '?'
  let e := type.getD 2 '?'
  if s = 'v' then (if t = 'u' then encode_uvar_array value else encode_ivar_array value)
  else
    let ctor := typed_array_constructor_of type
    let bytesize := parseIntChar s
    let is_native_endian := (e = 'l' && le) || (e = 'b' && !le) || decide (bytesize = 1)
    let typed_arr := value.map ctor.store
    if ctor.is_uint8 then typed_arr
    else
      let buf := (typed_arr.map (cellBytes le ctor.bytes_per_element)).flatten
      if is_native_endian then buf else swapEndianessFast buf bytesize

/-- `decode_number_array(buf, offset, type, array_length?)`: dispatch the
variable kinds; otherwise slice `bytesize * array_length` bytes (to the end
of the buffer when the count is absent — or 0, which is falsy), un-swap the
endianness when the declared endianness differs from the host, reinterpret
as cells and read the values back.  The reported size is the byte length of
the slice. -/
def decode_number_array (le : Bool) (buf : List Nat) (offset : Nat) (type : List Char)
    (array_length : Option Nat) : List Int × Nat :=
  let t := type.getD 0 '?'
  let s := type.getD 1 '?'
  let e := type.getD 2 '?'
  if s = 'v' then
    (if t = 'u' then decode_uvar_array buf offset array_length
      else decode_ivar_array buf offset array_length)
  else
    let bytesize := parseIntChar s
    let is_native_endian := (e = 'l' && le) || (e = 'b' && !le) || decide (bytesize = 1)
    let bytelength : Option Nat := match array_length with
      | some n => if n = 0 then none else some (bytesize * n)
      | none => none
    let array_buf := match bytelength with
      | some bl => jsSubarray buf (offset : Int) ((offset + bl : Nat) : Int)
      | none => jsSubarrayToEnd buf (offset : Int)
    let array_bytesize := array_buf.length
    let ctor := typed_array_constructor_of type
    let cells := groupCells le ctor.bytes_per_element
      (if is_native_endian then array_buf else swapEndianessFast array_buf bytesize).length
      (if is_native_endian then array_buf else swapEndianessFast array_buf bytesize)
    (cells.map ctor.load, array_bytesize)

/-- `encode_number`: the one-element-array case. -/
def encode_number (le : Bool) (value : Int) (type : List Char) : List Nat :=
  encode_number_array le [value] type

/-- `decode_number`: decode a one-element array and return `value_arr[0]`
(the source yields `undefined` on an empty result; that path is unreachable
for the buffers considered here, and the model defaults to 0). -/
def decode_number (le : Bool) (buf : List Nat) (offset : Nat) (type : List Char) :
    Int × Nat :=
  let r := decode_number_array le buf offset type (some 1)
  (r.1.getD 0 0, r.2)

/-! ### The dispatchers -/

/-- `pack(type, value, ...args)`. -/
def pack (le : Bool) (type : List Char) (value : JSPrim) : List Nat :=
  if type = "bool".toList then encode_bool value.asBool
  else if type = "cstr".toList then encode_cstr value.asStr
  else if type = "str".toList then encode_str value.asStr
  else if type = "bytes".toList then encode_bytes value.asBytes
  else if "[]".toList.isSuffixOf type then encode_number_array le value.asNumArr type
  else encode_number le value.asNum type

/-- `unpack(type, buf, offset, ...args)`; the single optional extra argument
(`bytesize` for `"str"`/`"bytes"`, `array_length` for the array kinds) is
`args`. -/
def unpack (le : Bool) (type : List Char) (buf : List Nat) (offset : Nat)
    (args : Option Nat) : JSPrim × Nat :=
  if type = "bool".toList then
    let r := decode_bool buf offset; (.bool r.1, r.2)
  else if type = "cstr".toList then
    let r := decode_cstr buf offset; (.str r.1, r.2)
  else if type = "str".toList then
    let r := decode_str buf offset args; (.str r.1, r.2)
  else if type = "bytes".toList then
    let r := decode_bytes buf offset args; (.bytes r.1, r.2)
  else if "[]".toList.isSuffixOf type then
    let r := decode_number_array le buf offset type args; (.numArr r.1, r.2)
  else
    let r := decode_number le buf offset type; (.num r.1, r.2)

/-! ### Well-typedness (the hypotheses of the round-trip contract) -/

/-- the inclusive range of well-typed values for a numeric kind: the integer
kinds admit exactly the values their cells represent; the float kinds admit
every bit pattern; the variable-length kinds admit the values on which the
32-bit bitwise arithmetic of the codec agrees with exact arithmetic. -/
def numKindRange (type : List Char) : Int × Int :=
  let t2 := [type.getD 0 '?', type.getD 1 '?']
  if t2 = "u1".toList then (0, 255)
  else if t2 = "u2".toList then (0, 2 ^ 16 - 1)
  else if t2 = "u4".toList then (0, 2 ^ 32 - 1)
  else if t2 = "i1".toList then (-128, 127)
  else if t2 = "i2".toList then (-(2 ^ 15), 2 ^ 15 - 1)
  else if t2 = "i4".toList then (-(2 ^ 31), 2 ^ 31 - 1)
  else if t2 = "f4".toList then (0, 2 ^ 32 - 1)
  else if t2 = "f8".toList then (0, 2 ^ 64 - 1)
  else if t2 = "uv".toList then (0, 2 ^ 31 - 1)
  else if t2 = "iv".toList then (-(2 ^ 31 - 1), 2 ^ 31 - 1)
  else (0, 255)

/-- a numeric value is well typed for a kind when it lies in the kind's
range. -/
def wellTypedNum (type : List Char) (v : Int) : Bool :=
  decide ((numKindRange type).1 ≤ v) && decide (v ≤ (numKindRange type).2)

/-- well-typedness of a value for a primitive type descriptor: the value has
the shape the descriptor's codec casts it to, its bytes are bytes, a
c-string contains no NUL byte, and numbers lie in their kind's range. -/
def wellTyped (type : List Char) (value : JSPrim) : Bool :=
  if type = "bool".toList then
    match value with | .bool _ => true | _ => false
  else if type = "cstr".toList then
    match value with | .str s => s.all (· < 256) && !s.contains 0 | _ => false
  else if type = "str".toList then
    match value with | .str s => s.all (· < 256) | _ => false
  else if type = "bytes".toList then
    match value with | .bytes s => s.all (· < 256) | _ => false
  else if "[]".toList.isSuffixOf type then
    match value with | .numArr vs => vs.all (wellTypedNum type) | _ => false
  else
    match value with | .num v => wellTypedNum type v | _ => false

/-- the decode-side extra argument matching an encoded value: the byte count
for `"str"`/`"bytes"`, the element count for the array kinds, nothing
otherwise. -/
def decodeArgs (type : List Char) (value : JSPrim) : Option Nat :=
  if type = "str".toList then some value.asStr.length
  else if type = "bytes".toList then some value.asBytes.length
  else if "[]".toList.isSuffixOf type then some value.asNumArr.length
  else none

/-- the primitive type descriptors of the codec's vocabulary: the fixed tags,
every fixed-width numeric kind (optionally suffixed by an endianness), the
variable-length kinds, and the array form of each numeric kind. -/
def primitiveKinds : List (List Char) :=
  (["bool", "cstr", "str", "bytes"] ++
    (["u1", "u1c", "u2", "u2l", "u2b", "u4", "u4l", "u4b",
      "i1", "i2", "i2l", "i2b", "i4", "i4l", "i4b",
      "f4", "f4l", "f4b", "f8", "f8l", "f8b", "uv", "iv"].flatMap
      (fun k => [k, k ++ "[]"]))).map String.toList

/-! ## Helper lemmas about the JavaScript arithmetic -/

theorem toInt32_small (x : Int) (h0 : 0 ≤ x) (h1 : x < 2 ^ 31) : toInt32 x = x := by
  unfold toInt32
  have h : (x + 2 ^ 31).emod (2 ^ 32) = x + 2 ^ 31 := Int.emod_eq_of_lt (by omega) (by omega)
  omega

theorem land_127_eq_mod (n : Nat) : n &&& 127 = n % 128 := by
  apply Nat.eq_of_testBit_eq
  intro i
  have h128 : (128 : Nat) = 2 ^ 7 := by norm_num
  rw [Nat.testBit_land, h128, Nat.testBit_mod_two_pow]
  rcases lt_or_ge i 7 with h | h
  · have hb : (127 : Nat).testBit i = true := by interval_cases i <;> decide
    simp [hb, h]
  · have hb : (127 : Nat).testBit i = false := by
      have h2 : (127 : Nat) < 2 ^ i :=
        lt_of_lt_of_le (by norm_num) (Nat.pow_le_pow_right (by norm_num) h)
      exact Nat.testBit_lt_two_pow h2
    simp [hb, Nat.not_lt.mpr h]

theorem land_63_eq_mod (n : Nat) : n &&& 63 = n % 64 := by
  apply Nat.eq_of_testBit_eq
  intro i
  have h64 : (64 : Nat) = 2 ^ 6 := by norm_num
  rw [Nat.testBit_land, h64, Nat.testBit_mod_two_pow]
  rcases lt_or_ge i 6 with h | h
  · have hb : (63 : Nat).testBit i = true := by interval_cases i <;> decide
    simp [hb, h]
  · have hb : (63 : Nat).testBit i = false := by
      have h2 : (63 : Nat) < 2 ^ i :=
        lt_of_lt_of_le (by norm_num) (Nat.pow_le_pow_right (by norm_num) h)
      exact Nat.testBit_lt_two_pow h2
    simp [hb, Nat.not_lt.mpr h]

theorem toBits32_small (x : Int) (h0 : 0 ≤ x) (h1 : x < 2 ^ 32) : toBits32 x = x.toNat := by
  unfold toBits32
  rw [Int.emod_eq_of_lt h0 h1]

theorem js_and_63_le (x : Int) : (js_and x 63).toNat ≤ 63 := by
  unfold js_and
  have hb : toBits32 63 = 63 := by rfl
  rw [hb]
  have hle : toBits32 x &&& 63 ≤ 63 := Nat.and_le_right
  rw [toInt32_small _ (by omega) (by omega)]
  omega

theorem js_and_63_eq (x : Int) (h0 : 0 ≤ x) (h1 : x < 2 ^ 31) :
    js_and x 63 = ((x.toNat % 64 : Nat) : Int) := by
  unfold js_and
  have hb : toBits32 63 = 63 := by rfl
  rw [hb, toBits32_small x h0 (by omega), land_63_eq_mod]
  have hlt : x.toNat % 64 < 64 := by omega
  exact toInt32_small _ (by omega) (by omega)

theorem js_and_127_eq (x : Int) (h0 : 0 ≤ x) (h1 : x < 2 ^ 31) :
    js_and x 127 = ((x.toNat % 128 : Nat) : Int) := by
  unfold js_and
  have hb : toBits32 127 = 127 := by rfl
  rw [hb, toBits32_small x h0 (by omega), land_127_eq_mod]
  have hlt : x.toNat % 128 < 128 := by omega
  exact toInt32_small _ (by omega) (by omega)

theorem int_fdiv_ofNat (m k : Nat) : ((m : Nat) : Int).fdiv ((k : Nat) : Int) = ((m / k : Nat) : Int) := by
  cases m with
  | zero => rw [Nat.zero_div]; rfl
  | succ m => rfl

theorem js_shr7_eq (x : Int) (h0 : 0 ≤ x) (h1 : x < 2 ^ 31) :
    js_shr7 x = ((x.toNat / 128 : Nat) : Int) := by
  unfold js_shr7
  rw [toInt32_small x h0 h1]
  conv_lhs => rw [← Int.toNat_of_nonneg h0]
  exact int_fdiv_ofNat x.toNat 128

theorem js_shl7_eq (x : Int) (h0 : 0 ≤ x) (h1 : x * 128 < 2 ^ 31) :
    js_shl7 x = x * 128 := by
  unfold js_shl7
  exact toInt32_small _ (by positivity) h1

/-! ## Claim theorems: uvar and ivar boundary tables -/

/-- C2.  The unsigned variable-length integer encoder matches the boundary
table: 0 ↦ `[0x00]`, 127 ↦ `[0x7F]`, 128 ↦ `[0x81, 0x00]`,
16383 ↦ `[0xFF, 0x7F]`, 16384 ↦ `[0x81, 0x80, 0x00]`. -/
theorem encode_uvar_boundary_table :
    encode_uvar 0 = [0x00] ∧ encode_uvar 127 = [0x7F] ∧
    encode_uvar 128 = [0x81, 0x00] ∧ encode_uvar 16383 = [0xFF, 0x7F] ∧
    encode_uvar 16384 = [0x81, 0x80, 0x00] := by
  decide

theorem ivar_lsb_shape (sign : Int) (fuel : Nat) :
    ∀ v : Int, ∃ l m, m ≤ 63 ∧
      ivar_lsb_to_msb sign fuel v = l ++ [m ||| (if sign = -1 then 192 else 128)] := by
  induction fuel with
  | zero =>
    intro v
    exact ⟨[], (js_and v 63).toNat, js_and_63_le v, rfl⟩
  | succ f ih =>
    intro v
    by_cases h : v > 63
    · obtain ⟨l, m, hm, hl⟩ := ih (js_shr7 v)
      refine ⟨((js_and v 127).toNat + 128) :: l, m, hm, ?_⟩
      simp [ivar_lsb_to_msb, h, hl]
    · exact ⟨[], (js_and v 63).toNat, js_and_63_le v, by simp [ivar_lsb_to_msb, h]⟩

theorem or192_testBit6 : ∀ m : Nat, m < 64 → (m ||| 192).testBit 6 = true := by decide

theorem or128_testBit6 : ∀ m : Nat, m < 64 → (m ||| 128).testBit 6 = false := by decide

theorem or192_and127_testBit6 : ∀ m : Nat, m < 64 → ((m ||| 192) &&& 127).testBit 6 = true := by
  decide

theorem or128_and127_testBit6 : ∀ m : Nat, m < 64 → ((m ||| 128) &&& 127).testBit 6 = false := by
  decide

theorem encode_ivar_element_leading_sign_bit (v : Int) :
    ((encode_ivar_element v).headD 0).testBit 6 = decide (v < 0) := by
  by_cases hv : v ≥ 0
  · have hsign : (if v ≥ 0 then (1 : Int) else -1) = 1 := if_pos hv
    simp only [encode_ivar_element, hsign]
    obtain ⟨l, m, hm, hl⟩ := ivar_lsb_shape 1 40 (v * 1)
    have h128 : (if (1 : Int) = -1 then 192 else 128) = (128 : Nat) := by norm_num
    rw [h128] at hl
    rw [hl]
    have hd : decide (v < 0) = false := by simp only [decide_eq_false_iff_not]; omega
    rw [hd]
    cases l with
    | nil =>
      simp only [List.nil_append, List.modifyHead, List.reverse_singleton, List.headD]
      exact or128_and127_testBit6 m (by omega)
    | cons b l2 =>
      simp only [List.cons_append, List.modifyHead, List.reverse_cons, List.reverse_append,
        List.reverse_singleton, List.singleton_append, List.headD]
      exact or128_testBit6 m (by omega)
  · have hsign : (if v ≥ 0 then (1 : Int) else -1) = -1 := if_neg hv
    simp only [encode_ivar_element, hsign]
    obtain ⟨l, m, hm, hl⟩ := ivar_lsb_shape (-1) 40 (v * -1)
    have h192 : (if (-1 : Int) = -1 then 192 else 128) = (192 : Nat) := by norm_num
    rw [h192] at hl
    rw [hl]
    have hd : decide (v < 0) = true := by simp only [decide_eq_true_eq]; omega
    rw [hd]
    cases l with
    | nil =>
      simp only [List.nil_append, List.modifyHead, List.reverse_singleton, List.headD]
      exact or192_and127_testBit6 m (by omega)
    | cons b l2 =>
      simp only [List.cons_append, List.modifyHead, List.reverse_cons, List.reverse_append,
        List.reverse_singleton, List.singleton_append, List.headD]
      exact or192_testBit6 m (by omega)

/-- C3.  The signed variable-length integer encoder matches the boundary
table — 0 ↦ `[0x00]` (the single canonical form produced by the code),
63 ↦ `[0x3F]`, −63 ↦ `[0x7F]`, 8191 ↦ `[0xBF, 0x7F]`,
−8191 ↦ `[0xFF, 0x7F]` — and the second-highest bit (bit 6) of the leading
byte is set exactly when the encoded value is negative. -/
theorem encode_ivar_boundary_table_and_sign_bit :
    (encode_ivar 0 = [0x00] ∧ encode_ivar 63 = [0x3F] ∧ encode_ivar (-63) = [0x7F] ∧
      encode_ivar 8191 = [0xBF, 0x7F] ∧ encode_ivar (-8191) = [0xFF, 0x7F]) ∧
    ∀ v : Int, ((encode_ivar v).headD 0).testBit 6 = decide (v < 0) := by
  constructor
  · decide
  · intro v
    have h : encode_ivar v = encode_ivar_element v := by
      unfold encode_ivar encode_ivar_array
      simp
    rw [h]
    exact encode_ivar_element_leading_sign_bit v

/-! ## Claim theorems: range resolution -/

/-- C5 counterexample.  The claim `0 ≤ start' ≤ end'` fails on the code:
`resolveRange(3, 1, 10)` yields `start' = 3 > 1 = end'` (the spec's own
clamped-span example), and `resolveRange(-20, undefined, 10)` yields
`start' = -10 < 0` — the out-of-range negative index is translated, not
clamped. -/
theorem resolveRange_claim_counterexample :
    (resolveRange (some 3) (some 1) (some 10) none = (3, some 1, some 0) ∧
      ¬((3 : Int) ≤ 1)) ∧
    (resolveRange (some (-20)) none (some 10) none = (-10, some 10, some 20) ∧
      ¬((0 : Int) ≤ -10)) := by
  decide

/-- C5 (amended).  With a known non-negative length, `resolveRange` is total
and returns the triple obtained by applying the defaults (`start ↦ 0`,
`end ↦ length`), translating negative indices by `+ length` (without any
clamping, so `start'` may be negative or exceed `end'`), adding the offset
to both, and reporting `span = end' − start'` (computed before the offset)
clamped to 0 when the subtraction would be negative. -/
theorem resolveRange_with_length (start end_ offset : Option Int) (L : Int) (_hL : 0 ≤ L) :
    resolveRange start end_ (some L) offset =
      (start.getD 0 + (if start.getD 0 ≥ 0 then 0 else L) + offset.getD 0,
       some (end_.getD L + (if end_.getD L ≥ 0 then 0 else L) + offset.getD 0),
       some (max (end_.getD L + (if end_.getD L ≥ 0 then 0 else L) -
         (start.getD 0 + (if start.getD 0 ≥ 0 then 0 else L))) 0)) := by
  simp only [resolveRange]
  have hmax : ∀ a : Int, (if a ≥ 0 then a else 0) = max a 0 := by
    intro a
    split <;> omega
  rw [hmax]

/-- C5 witness: the spec's own example `resolveRange(-2, undefined, 10)`
resolves to `(8, 10, 2)`. -/
theorem resolveRange_with_length_witness :
    resolveRange (some (-2)) none (some 10) none = (8, some 10, some 2) := by
  have h := resolveRange_with_length (some (-2)) none none 10 (by norm_num)
  simpa using h

/-! ## Claim theorems: the c-string codec -/

theorem findIdx_zero_eq_some (l : List Nat) (j : Nat) (hj : j < l.length)
    (hp : l.getD j 0 = 0) (hmin : ∀ i, i < j → l.getD i 0 ≠ 0) :
    l.findIdx? (· = 0) = some j := by
  induction l generalizing j with
  | nil => simp at hj
  | cons a t ih =>
    cases j with
    | zero =>
      simp only [List.getD_cons_zero] at hp
      simp [List.findIdx?_cons, hp]
    | succ j =>
      have ha : a ≠ 0 := by
        have := hmin 0 (Nat.succ_pos j)
        simpa using this
      simp only [List.getD_cons_succ] at hp
      rw [List.findIdx?_cons]
      simp only [decide_eq_true_eq, if_neg ha, List.findIdx?_succ]
      rw [ih j (by simpa using hj) hp]
      · rfl
      · intro i hi
        have := hmin (i + 1) (by omega)
        simpa using this

theorem findIdx_zero_eq_none (l : List Nat) (hall : ∀ i, i < l.length → l.getD i 0 ≠ 0) :
    l.findIdx? (· = 0) = none := by
  induction l with
  | nil => rfl
  | cons a t ih =>
    have ha : a ≠ 0 := by
      have := hall 0 (Nat.succ_pos t.length)
      simpa using this
    rw [List.findIdx?_cons]
    simp only [decide_eq_true_eq, if_neg ha, List.findIdx?_succ]
    rw [ih]
    · rfl
    · intro i hi
      have := hall (i + 1) (by simpa using Nat.succ_lt_succ hi)
      simpa using this

theorem jsSubarray_natCast (l : List Nat) (b e : Nat) (hb : b ≤ l.length)
    (he : e ≤ l.length) :
    jsSubarray l (b : Int) (e : Int) = (l.drop b).take (e - b) := by
  unfold jsSubarray jsRelIndex
  rw [if_neg (by omega : ¬((e : Int) < 0)), if_neg (by omega : ¬((b : Int) < 0))]
  rw [if_pos (by omega : ((e : Int)).toNat ≤ l.length)]
  rw [if_pos (by omega : ((b : Int)).toNat ≤ l.length)]
  have h1 : ((e : Int)).toNat = e := by omega
  have h2 : ((b : Int)).toNat = b := by omega
  rw [h1, h2, List.drop_take]

theorem jsSubarray_neg_one (l : List Nat) (b : Nat) (hb : b ≤ l.length) :
    jsSubarray l (b : Int) (-1) = (l.drop b).take (l.length - 1 - b) := by
  unfold jsSubarray jsRelIndex
  rw [if_pos (by omega : (-1 : Int) < 0), if_neg (by omega : ¬((b : Int) < 0))]
  rw [if_pos (by omega : ((b : Int)).toNat ≤ l.length)]
  have h1 : ((l.length : Int) + (-1)).toNat = l.length - 1 := by omega
  have h2 : ((b : Int)).toNat = b := by omega
  rw [h1, h2, List.drop_take]

/-- C7.  The c-string codec appends a single 0x00 terminator to the text
bytes; the decoder scans forward from `offset` for the first 0x00 and
consumes through it inclusive; encoding `"hi"` yields `[104, 105, 0]` and
decoding it from offset 0 yields `("hi", 3)`. -/
theorem cstr_codec_spec :
    (∀ s : List Nat, encode_cstr s = s ++ [0]) ∧
    (∀ (buf : List Nat) (offset p : Nat), offset ≤ p → p < buf.length →
      buf.getD p 0 = 0 → (∀ i, offset ≤ i → i < p → buf.getD i 0 ≠ 0) →
      decode_cstr buf offset = ((buf.drop offset).take (p - offset), p + 1 - offset)) ∧
    pack true "cstr".toList (.str [104, 105]) = [104, 105, 0] ∧
    unpack true "cstr".toList [104, 105, 0] 0 none = (.str [104, 105], 3) := by
  refine ⟨fun s => rfl, ?_, by decide, by decide⟩
  intro buf offset p hop hp hz hmin
  have hfind : (buf.drop offset).findIdx? (· = 0) = some (p - offset) := by
    apply findIdx_zero_eq_some
    · rw [List.length_drop]
      omega
    · rw [List.getD_eq_getElem?_getD, List.getElem?_drop]
      rw [List.getD_eq_getElem?_getD] at hz
      rw [show offset + (p - offset) = p by omega]
      exact hz
    · intro i hi
      rw [List.getD_eq_getElem?_getD, List.getElem?_drop]
      rw [← List.getD_eq_getElem?_getD]
      exact hmin (offset + i) (by omega) (by omega)
  unfold decode_cstr js_indexOf
  simp only [hfind]
  have hidx : ((offset + (p - offset) : Nat) : Int) = ((p : Nat) : Int) := by omega
  rw [hidx]
  rw [jsSubarray_natCast buf offset p (by omega) (by omega)]
  have hlen : ((buf.drop offset).take (p - offset)).length = p - offset := by
    rw [List.length_take, List.length_drop]
    omega
  rw [hlen]
  have : p - offset + 1 = p + 1 - offset := by omega
  rw [this]

/-- C7 witness: the scan contract applied to the concrete buffer
`[104, 105, 0, 9]` at offset 0. -/
theorem cstr_codec_spec_witness : decode_cstr [104, 105, 0, 9] 0 = ([104, 105], 3) := by
  have h := cstr_codec_spec.2.1 [104, 105, 0, 9] 0 2 (by omega) (by decide) (by decide)
    (by decide)
  simpa using h

/-- C9.  When no 0x00 byte occurs at or after `offset` (and at least one
byte remains), `decode_cstr` does not fail: it returns the bytes from
`offset` up to but excluding the buffer's final byte, and reports
`buf.length - offset` bytes consumed — the final byte is counted as
consumed but dropped from the decoded text. -/
theorem decode_cstr_missing_terminator (buf : List Nat) (offset : Nat)
    (hoff : offset < buf.length)
    (hno : ∀ i, offset ≤ i → i < buf.length → buf.getD i 0 ≠ 0) :
    decode_cstr buf offset = ((buf.drop offset).dropLast, buf.length - offset) := by
  have hfind : (buf.drop offset).findIdx? (· = 0) = none := by
    apply findIdx_zero_eq_none
    intro i hi
    rw [List.length_drop] at hi
    rw [List.getD_eq_getElem?_getD, List.getElem?_drop]
    rw [← List.getD_eq_getElem?_getD]
    exact hno (offset + i) (by omega) (by omega)
  unfold decode_cstr js_indexOf
  simp only [hfind]
  rw [jsSubarray_neg_one buf offset (by omega)]
  have hdl : (buf.drop offset).take (buf.length - 1 - offset) = (buf.drop offset).dropLast := by
    rw [List.dropLast_eq_take, List.length_drop]
    congr 1
    omega
  rw [hdl]
  have hlen : ((buf.drop offset).dropLast).length = buf.length - offset - 1 := by
    rw [List.length_dropLast, List.length_drop]
  rw [hlen]
  have : buf.length - offset - 1 + 1 = buf.length - offset := by omega
  rw [this]

/-- C9 witness: decoding `[104, 105, 7]` (no NUL anywhere) from offset 0
yields the first two bytes and reports all three bytes consumed. -/
theorem decode_cstr_missing_terminator_witness :
    decode_cstr [104, 105, 7] 0 = ([104, 105], 3) := by
  have h := decode_cstr_missing_terminator [104, 105, 7] 0 (by decide) (by decide)
  simpa using h

/-! ## Claim theorems: unknown numeric kind fallback -/

/-- C8.  An unrecognized numeric kind string does not fail hard: the
constructor lookup falls back to `Uint8Array` while reporting the anomaly
on the error log, so encode/decode still return results — concretely, the
unknown kind `"x1"` logs, packs 300 as its low byte `[44]`, and unpacks it
back as an 8-bit unsigned value. -/
theorem unknown_numeric_kind_fallback :
    (∀ type : List Char, typed_array_constructor_logs_error type = true →
      typed_array_constructor_of type = uint8Ctor) ∧
    typed_array_constructor_logs_error "x1".toList = true ∧
    typed_array_constructor_of "x1".toList = uint8Ctor ∧
    typed_array_constructor_logs_error "u2l".toList = false ∧
    pack true "x1".toList (.num 300) = [44] ∧
    unpack true "x1".toList (pack true "x1".toList (.num 300)) 0 none = (.num 44, 1) := by
  refine ⟨?_, rfl, rfl, rfl, by decide, by decide⟩
  intro type h
  unfold typed_array_constructor_logs_error at h
  unfold typed_array_constructor_of
  split at h
  · simp at h
  · simp only [decide_eq_true_eq, List.mem_cons, List.mem_singleton, not_or] at h
    rename_i hc
    rw [if_neg hc]
    simp only [if_neg h.1, if_neg h.2.1, if_neg h.2.2.1, if_neg h.2.2.2.1,
      if_neg h.2.2.2.2.1, if_neg h.2.2.2.2.2.1, if_neg h.2.2.2.2.2.2.1,
      if_neg h.2.2.2.2.2.2.2.1]

/-- C8 witness: the fallback contract applied to the concrete kind `"x1"`. -/
theorem unknown_numeric_kind_fallback_witness :
    typed_array_constructor_of "x1".toList = uint8Ctor := by
  exact unknown_numeric_kind_fallback.1 "x1".toList rfl

/-! ## The endianness-swap loops -/

theorem getD_set_zero (l : List Nat) (i j v : Nat) :
    (l.set i v).getD j 0 = if i = j ∧ i < l.length then v else l.getD j 0 := by
  rw [List.getD_eq_getElem?_getD, List.getElem?_set]
  by_cases h1 : i = j
  · subst h1
    by_cases h2 : i < l.length
    · simp [h2]
    · rw [if_pos rfl, if_neg h2, if_neg (by tauto)]
      rw [List.getD_eq_default l 0 (by omega)]
      rfl
  · rw [if_neg h1, if_neg (by tauto), ← List.getD_eq_getElem?_getD]

theorem jsGet_natCast (l : List Nat) (m : Nat) : jsGet l (m : Int) = l.getD m 0 := by
  unfold jsGet
  rw [if_neg (by omega)]
  simp

theorem swapFast_inner_fst (bs : Nat) (a : Int) :
    ∀ (f i : Nat) (st : List Nat × List Nat), (swapFast_inner bs a f i st).1 = st.1 := by
  intro f
  induction f with
  | zero => intro i st; rfl
  | succ f ih => intro i st; exact ih (i + bs) _

theorem swapFast_inner_snd_length (bs : Nat) (a : Int) :
    ∀ (f i : Nat) (st : List Nat × List Nat),
      (swapFast_inner bs a f i st).2.length = st.2.length := by
  intro f
  induction f with
  | zero => intro i st; rfl
  | succ f ih =>
    intro i st
    rw [swapFast_inner, ih]
    exact List.length_set st.2 i _

theorem swapFast_inner_getD (bs : Nat) (a : Int) (hbs : 0 < bs) :
    ∀ (f i : Nat) (st : List Nat × List Nat) (j : Nat),
      (swapFast_inner bs a f i st).2.getD j 0 =
        if i ≤ j ∧ j < st.2.length ∧ bs ∣ (j - i) ∧ j < i + bs * f
        then jsGet st.1 ((j : Int) + a) else st.2.getD j 0 := by
  intro f
  induction f with
  | zero =>
    intro i st j
    rw [if_neg]
    · rfl
    · rintro ⟨h1, _, _, h4⟩
      rw [Nat.mul_zero] at h4
      omega
  | succ f ih =>
    intro i st j
    have hstep : swapFast_inner bs a (f + 1) i st =
        swapFast_inner bs a f (i + bs) (st.1, st.2.set i (jsGet st.1 ((i : Int) + a))) := rfl
    rw [hstep, ih]
    rw [List.length_set]
    by_cases hC2 : i ≤ j ∧ j < st.2.length ∧ bs ∣ (j - i) ∧ j < i + bs * (f + 1)
    · rw [if_pos hC2]
      obtain ⟨h1, h2, h3, h4⟩ := hC2
      by_cases hij : i = j
      · subst hij
        rw [if_neg]
        · rw [getD_set_zero, if_pos ⟨rfl, h2⟩]
        · rintro ⟨hc1, hc2, hc3, hc4⟩
          omega
      · obtain ⟨q, hq⟩ := h3
        cases q with
        | zero => omega
        | succ q2 =>
          rw [Nat.mul_succ] at hq h4
          rw [if_pos]
          constructor
          · omega
          refine ⟨by omega, ⟨q2, by omega⟩, by omega⟩
    · rw [if_neg hC2]
      rw [if_neg]
      · rw [getD_set_zero, if_neg]
        rintro ⟨hij, hlen⟩
        subst hij
        exact hC2 ⟨le_refl i, hlen, ⟨0, by rw [Nat.mul_zero, Nat.sub_self]⟩, Nat.lt_add_of_pos_right (Nat.mul_pos hbs (Nat.succ_pos f))⟩
      · rintro ⟨h1, h2, h3, h4⟩
        obtain ⟨q, hq⟩ := h3
        refine hC2 ⟨by omega, h2, ⟨q + 1, by rw [Nat.mul_succ]; omega⟩, by
          rw [Nat.mul_succ]; omega⟩

theorem swapFast_outer_fst (bs len : Nat) :
    ∀ (f offset : Nat) (st : List Nat × List Nat),
      (swapFast_outer bs len f offset st).1 = st.1 := by
  intro f
  induction f with
  | zero => intro offset st; rfl
  | succ f ih =>
    intro offset st
    rw [swapFast_outer, ih, swapFast_inner_fst]

theorem swapFast_outer_snd_length (bs len : Nat) :
    ∀ (f offset : Nat) (st : List Nat × List Nat),
      (swapFast_outer bs len f offset st).2.length = st.2.length := by
  intro f
  induction f with
  | zero => intro offset st; rfl
  | succ f ih =>
    intro offset st
    rw [swapFast_outer, ih, swapFast_inner_snd_length]

theorem swapFast_outer_getD (bs len : Nat) (hbs : 0 < bs) :
    ∀ (f offset : Nat) (st : List Nat × List Nat) (j : Nat), offset + f ≤ bs →
      st.2.length = len →
      (swapFast_outer bs len f offset st).2.getD j 0 =
        if j < len ∧ offset ≤ j % bs ∧ j % bs < offset + f
        then jsGet st.1 ((j : Int) + ((bs : Int) - 1 - 2 * (j % bs : Nat)))
        else st.2.getD j 0 := by
  intro f
  induction f with
  | zero =>
    intro offset st j hof hlen
    rw [if_neg (by omega)]
    rfl
  | succ f ih =>
    intro offset st j hof hlen
    have hstep : swapFast_outer bs len (f + 1) offset st =
        swapFast_outer bs len f (offset + 1)
          (swapFast_inner bs ((bs : Int) - 1 - 2 * offset) ((len + bs - 1) / bs) offset st) :=
      rfl
    rw [hstep, ih _ _ _ (by omega) (by rw [swapFast_inner_snd_length]; exact hlen)]
    rw [swapFast_inner_fst, swapFast_inner_getD bs _ hbs, hlen]
    have hmod := Nat.div_add_mod j bs
    by_cases hA : j < len ∧ j % bs = offset
    · obtain ⟨hjlen, hjmod⟩ := hA
      rw [if_neg (by omega)]
      rw [if_pos, if_pos (by omega)]
      · rw [hjmod]
      refine ⟨by omega, hjlen, ⟨j / bs, by omega⟩, ?_⟩
      have hfi : j / bs + 1 ≤ (len + bs - 1) / bs := by
        rw [Nat.le_div_iff_mul_le hbs, Nat.succ_mul, mul_comm (j / bs) bs]
        omega
      have hmul := Nat.mul_le_mul_left bs hfi
      rw [Nat.mul_succ] at hmul
      omega
    · by_cases hB : j < len ∧ offset + 1 ≤ j % bs ∧ j % bs < offset + 1 + f
      · rw [if_pos hB, if_pos (by omega)]
      · rw [if_neg hB, if_neg, if_neg (by omega)]
        rintro ⟨h1, h2, h3, h4⟩
        obtain ⟨q, hq⟩ := h3
        have hjq : j = offset + bs * q := by omega
        have : j % bs = offset := by
          rw [hjq, Nat.add_mul_mod_self_left, Nat.mod_eq_of_lt (by omega)]
        exact hA ⟨h2, this⟩

theorem swapEndianessFast_length (buf : List Nat) (bs : Nat) :
    (swapEndianessFast buf bs).length = buf.length := by
  unfold swapEndianessFast swapEndianessFast_state
  rw [swapFast_outer_snd_length]
  exact List.length_replicate buf.length 0

theorem swapEndianessFast_state_fst (buf : List Nat) (bs : Nat) :
    (swapEndianessFast_state buf bs).1 = buf := by
  unfold swapEndianessFast_state
  rw [swapFast_outer_fst]

theorem swapEndianessFast_getD (buf : List Nat) (bs : Nat) (hbs : 0 < bs) (j : Nat)
    (hj : j < buf.length) :
    (swapEndianessFast buf bs).getD j 0 =
      buf.getD (bs * (j / bs) + (bs - 1 - j % bs)) 0 := by
  unfold swapEndianessFast swapEndianessFast_state
  rw [swapFast_outer_getD bs buf.length hbs bs 0 _ j (by omega)
    (List.length_replicate buf.length 0)]
  rw [if_pos ⟨hj, by omega, by have := Nat.mod_lt j hbs; omega⟩]
  have hmod := Nat.div_add_mod j bs
  have hr : j % bs < bs := Nat.mod_lt j hbs
  have hcast : ((j : Int) + ((bs : Int) - 1 - 2 * (j % bs : Nat))) =
      ((bs * (j / bs) + (bs - 1 - j % bs) : Nat) : Int) := by
    obtain ⟨m, hm⟩ : ∃ m, bs * (j / bs) = m := ⟨_, rfl⟩
    obtain ⟨r, hrr⟩ : ∃ r, j % bs = r := ⟨_, rfl⟩
    rw [hm, hrr] at hmod ⊢
    rw [hrr] at hr
    omega
  rw [hcast, jsGet_natCast]

theorem mirror_lt (bs len j : Nat) (hbs : 0 < bs) (hdvd : bs ∣ len) (hj : j < len) :
    bs * (j / bs) + (bs - 1 - j % bs) < len := by
  obtain ⟨K, hK⟩ := hdvd
  have hdiv : j / bs < K := by
    rw [Nat.div_lt_iff_lt_mul hbs, mul_comm K bs, ← hK]
    exact hj
  have hsm : bs - 1 - j % bs < bs :=
    lt_of_le_of_lt (Nat.sub_le _ _) (Nat.sub_lt hbs Nat.one_pos)
  calc bs * (j / bs) + (bs - 1 - j % bs) < bs * (j / bs) + bs :=
        Nat.add_lt_add_left hsm _
    _ = bs * (j / bs + 1) := (Nat.mul_succ bs (j / bs)).symm
    _ ≤ bs * K := Nat.mul_le_mul_left bs hdiv
    _ = len := hK.symm

theorem mirror_mirror (bs j : Nat) (hbs : 0 < bs) :
    bs * ((bs * (j / bs) + (bs - 1 - j % bs)) / bs) +
      (bs - 1 - (bs * (j / bs) + (bs - 1 - j % bs)) % bs) = j := by
  have hr : j % bs < bs := Nat.mod_lt j hbs
  have hdiv : (bs * (j / bs) + (bs - 1 - j % bs)) / bs = j / bs := by
    rw [Nat.mul_add_div hbs, Nat.div_eq_of_lt (show bs - 1 - j % bs < bs by omega), Nat.add_zero]
  have hmod : (bs * (j / bs) + (bs - 1 - j % bs)) % bs = bs - 1 - j % bs := by
    rw [Nat.add_comm (bs * (j / bs)) (bs - 1 - j % bs), Nat.add_mul_mod_self_left,
      Nat.mod_eq_of_lt (show bs - 1 - j % bs < bs by omega)]
  rw [hdiv, hmod]
  have hr2 : j % bs ≤ bs - 1 := by omega
  rw [Nat.sub_sub_self hr2]
  exact Nat.div_add_mod j bs

theorem list_eq_of_getD (l1 l2 : List Nat) (hlen : l1.length = l2.length)
    (h : ∀ j, j < l1.length → l1.getD j 0 = l2.getD j 0) : l1 = l2 := by
  apply List.ext_getElem hlen
  intro i h1 h2
  have hi := h i h1
  rw [List.getD_eq_getElem?_getD, List.getD_eq_getElem?_getD,
    List.getElem?_eq_getElem h1, List.getElem?_eq_getElem h2] at hi
  simpa using hi

theorem swapFast_swapFast (buf : List Nat) (bs : Nat) (hbs : 0 < bs)
    (hdvd : bs ∣ buf.length) :
    swapEndianessFast (swapEndianessFast buf bs) bs = buf := by
  apply list_eq_of_getD
  · rw [swapEndianessFast_length, swapEndianessFast_length]
  · intro j hj
    rw [swapEndianessFast_length, swapEndianessFast_length] at hj
    rw [swapEndianessFast_getD _ bs hbs j (by rw [swapEndianessFast_length]; exact hj)]
    rw [swapEndianessFast_getD buf bs hbs _
      (mirror_lt bs buf.length j hbs hdvd hj)]
    rw [mirror_mirror bs j hbs]

/-! ## Claim theorems: the two endianness swappers agree -/

theorem reverseRange_append (pre mid post : List Nat) :
    reverseRange (pre ++ mid ++ post) pre.length (pre.length + mid.length) =
      pre ++ mid.reverse ++ post := by
  unfold reverseRange -- marker
  have h1 : List.take pre.length (pre ++ mid ++ post) = pre := by
    rw [List.append_assoc, List.take_left]
  have h2 : List.take (pre.length + mid.length) (pre ++ mid ++ post) = pre ++ mid := by
    have : pre.length + mid.length = (pre ++ mid).length := (List.length_append pre mid).symm
    rw [this, List.take_left]
  have h3 : List.drop (pre.length + mid.length) (pre ++ mid ++ post) = post := by
    have : pre.length + mid.length = (pre ++ mid).length := (List.length_append pre mid).symm
    rw [this, List.drop_left]
  rw [h1, h2, h3, List.drop_left]

theorem reverseRange_append_of_length (pre mid post : List Nat) (bs : Nat)
    (hmid : mid.length = bs) :
    reverseRange (pre ++ mid ++ post) pre.length (pre.length + bs) =
      pre ++ mid.reverse ++ post := by
  subst hmid
  exact reverseRange_append pre mid post

theorem swapEndianess_go_blocks (bs : Nat) (_hbs : 0 < bs) :
    ∀ (f : Nat) (pre rest : List Nat), rest.length = f * bs →
      swapEndianess_go bs f pre.length (pre ++ rest) = pre ++ blockRev bs f rest := by
  intro f
  induction f with
  | zero =>
    intro pre rest hlen
    rw [Nat.zero_mul] at hlen
    rw [List.eq_nil_of_length_eq_zero hlen]
    rfl
  | succ f ih =>
    intro pre rest hlen
    have hsplit : rest = rest.take bs ++ rest.drop bs := (List.take_append_drop bs rest).symm
    have htk : (rest.take bs).length = bs := by
      rw [List.length_take]
      rw [Nat.succ_mul] at hlen
      omega
    have hstep : swapEndianess_go bs (f + 1) pre.length (pre ++ rest) =
        swapEndianess_go bs f (pre.length + bs)
          (reverseRange (pre ++ rest) pre.length (pre.length + bs)) := rfl
    rw [hstep]
    have hrev : reverseRange (pre ++ rest) pre.length (pre.length + bs) =
        pre ++ (rest.take bs).reverse ++ rest.drop bs := by
      conv_lhs => rw [hsplit, ← List.append_assoc]
      exact reverseRange_append_of_length pre (rest.take bs) (rest.drop bs) bs htk
    rw [hrev]
    have hlen2 : pre.length + bs = (pre ++ (rest.take bs).reverse).length := by
      rw [List.length_append, List.length_reverse, htk]
    rw [hlen2]
    rw [ih (pre ++ (rest.take bs).reverse) (rest.drop bs)
      (by rw [List.length_drop, hlen, Nat.succ_mul]; omega)]
    rw [blockRev]
    simp [List.append_assoc]

theorem swapEndianess_eq_blockRev (buf : List Nat) (bs : Nat) (hbs : 0 < bs)
    (hdvd : bs ∣ buf.length) :
    swapEndianess buf bs = blockRev bs (buf.length / bs) buf := by
  obtain ⟨K, hK⟩ := hdvd
  unfold swapEndianess
  have htrip : (buf.length + bs - 1) / bs = K := by
    rcases Nat.eq_zero_or_pos K with hK0 | hK0
    · subst hK0
      rw [Nat.mul_zero] at hK
      rw [hK]
      rw [Nat.div_eq_of_lt (by omega)]
    · have : buf.length + bs - 1 = bs * K + (bs - 1) := by omega
      rw [this, Nat.mul_add_div hbs, Nat.div_eq_of_lt (show bs - 1 < bs by omega), Nat.add_zero]
  have hdivK : buf.length / bs = K := by
    rw [hK, mul_comm, Nat.mul_div_cancel _ hbs]
  rw [htrip, hdivK]
  have h0 : (0 : Nat) = ([] : List Nat).length := rfl
  have hbuf : buf = [] ++ buf := rfl
  rw [h0]
  conv_lhs => rw [hbuf]
  rw [swapEndianess_go_blocks bs hbs K [] buf (by rw [hK]; exact Nat.mul_comm bs K)]
  rfl

theorem blockRev_length (bs : Nat) :
    ∀ (f : Nat) (rest : List Nat), rest.length = f * bs →
      (blockRev bs f rest).length = rest.length := by
  intro f
  induction f with
  | zero => intro rest hlen; rfl
  | succ f ih =>
    intro rest hlen
    rw [blockRev, List.length_append, List.length_reverse, List.length_take,
      ih (rest.drop bs) (by rw [List.length_drop, hlen, Nat.succ_mul]; omega),
      List.length_drop]
    rw [Nat.succ_mul] at hlen
    omega

theorem blockRev_getD (bs : Nat) (hbs : 0 < bs) :
    ∀ (f : Nat) (rest : List Nat) (j : Nat), rest.length = f * bs → j < rest.length →
      (blockRev bs f rest).getD j 0 = rest.getD (bs * (j / bs) + (bs - 1 - j % bs)) 0 := by
  intro f
  induction f with
  | zero =>
    intro rest j hlen hj
    rw [Nat.zero_mul] at hlen
    omega
  | succ f ih =>
    intro rest j hlen hj
    rw [Nat.succ_mul] at hlen
    have htk : (rest.take bs).length = bs := by
      rw [List.length_take]
      omega
    rw [blockRev]
    by_cases hjbs : j < bs
    · have hidx : bs * (j / bs) + (bs - 1 - j % bs) = bs - 1 - j := by
        rw [Nat.div_eq_of_lt hjbs, Nat.mod_eq_of_lt hjbs, Nat.mul_zero, Nat.zero_add]
      rw [hidx]
      rw [List.getD_append _ _ 0 j (by rw [List.length_reverse, htk]; omega)]
      rw [List.getD_eq_getElem?_getD, List.getD_eq_getElem?_getD]
      rw [List.getElem?_reverse (by rw [htk]; omega), htk]
      rw [List.getElem?_take, if_pos (by omega : bs - 1 - j < bs)]
    · rw [List.getD_append_right _ _ 0 j (by rw [List.length_reverse, htk]; omega)]
      rw [List.length_reverse, htk]
      rw [ih (rest.drop bs) (j - bs) (by rw [List.length_drop]; omega)
        (by rw [List.length_drop]; omega)]
      have hd : j - bs + bs = j := by omega
      have hdiv : (j - bs) / bs + 1 = j / bs := by
        rw [← Nat.add_div_right _ hbs, hd]
      have hmod : (j - bs) % bs = j % bs := by
        rw [← Nat.add_mod_right _ bs, hd]
      rw [List.getD_eq_getElem?_getD, List.getElem?_drop, ← List.getD_eq_getElem?_getD]
      congr 1
      rw [hmod, ← hdiv, Nat.mul_succ]
      omega

/-- C4.  For every buffer whose length is an exact multiple of the element
width, and every width in {2, 4, 8}, the allocating `swapEndianessFast`
returns exactly the buffer that the in-place `swapEndianess` produces: both
reverse the byte order of every element. -/
theorem swapEndianessFast_eq_swapEndianess (buf : List Nat) (bs : Nat)
    (hbs : bs = 2 ∨ bs = 4 ∨ bs = 8) (hdvd : bs ∣ buf.length) :
    swapEndianessFast buf bs = swapEndianess buf bs := by
  have hbs0 : 0 < bs := by rcases hbs with h | h | h <;> omega
  obtain ⟨K, hK⟩ := hdvd
  apply list_eq_of_getD
  · rw [swapEndianessFast_length, swapEndianess_eq_blockRev buf bs hbs0 ⟨K, hK⟩,
      blockRev_length bs (buf.length / bs) buf
        (by rw [hK, mul_comm, Nat.mul_div_cancel _ hbs0, mul_comm])]
  · intro j hj
    rw [swapEndianessFast_length] at hj
    rw [swapEndianessFast_getD buf bs hbs0 j hj]
    rw [swapEndianess_eq_blockRev buf bs hbs0 ⟨K, hK⟩]
    rw [blockRev_getD bs hbs0 (buf.length / bs) buf j
      (by rw [hK, mul_comm, Nat.mul_div_cancel _ hbs0, mul_comm]) hj]

/-- C4 witness: both swappers on the concrete six-byte buffer with width 2. -/
theorem swapEndianessFast_eq_swapEndianess_witness :
    swapEndianessFast [1, 2, 3, 4, 5, 6] 2 = swapEndianess [1, 2, 3, 4, 5, 6] 2 :=
  swapEndianessFast_eq_swapEndianess [1, 2, 3, 4, 5, 6] 2 (Or.inl rfl) (by decide)

/-- C10.  On buffers whose length is an exact multiple of the element width,
`swapEndianessFast` never mutates its argument (the final contents of the
input buffer equal the original) and is an involution: applying it twice
returns a buffer byte-identical to the original. -/
theorem swapEndianessFast_involution_no_mutation (buf : List Nat) (bs : Nat)
    (hbs : 0 < bs) (hdvd : bs ∣ buf.length) :
    (swapEndianessFast_state buf bs).1 = buf ∧
    swapEndianessFast (swapEndianessFast buf bs) bs = buf :=
  ⟨swapEndianessFast_state_fst buf bs, swapFast_swapFast buf bs hbs hdvd⟩

/-- C10 witness: the involution and non-mutation contract on a concrete
four-byte buffer with width 2. -/
theorem swapEndianessFast_involution_no_mutation_witness :
    (swapEndianessFast_state [1, 2, 3, 4] 2).1 = [1, 2, 3, 4] ∧
    swapEndianessFast (swapEndianessFast [1, 2, 3, 4] 2) 2 = [1, 2, 3, 4] :=
  swapEndianessFast_involution_no_mutation [1, 2, 3, 4] 2 (by omega) (by decide)

/-! ## Variable-length integer codec: encoder shape lemmas -/

theorem digitsVal_append (l1 l2 : List Nat) :
    ∀ acc, digitsVal acc (l1 ++ l2) = digitsVal (digitsVal acc l1) l2 := by
  induction l1 with
  | nil => intro acc; rfl
  | cons c r ih =>
    intro acc
    rw [List.cons_append]
    exact ih _

theorem digitsVal_ge (l : List Nat) : ∀ acc, acc ≤ digitsVal acc l := by
  induction l with
  | nil => intro acc; exact le_refl acc
  | cons c r ih =>
    intro acc
    calc acc ≤ acc * 128 + c % 128 := by omega
      _ ≤ digitsVal (acc * 128 + c % 128) r := ih _

theorem mask_chunk_eq : ∀ a : Nat, a < 128 → (a + 128) &&& 127 = a := by decide

theorem uvar_lsb_to_msb_eq_natChunksLE :
    ∀ (fuel : Nat) (x : Int), 0 ≤ x → x < 2 ^ 31 →
      uvar_lsb_to_msb fuel x = natChunksLE fuel x.toNat := by
  intro fuel
  induction fuel with
  | zero =>
    intro x h0 h1
    show [(js_and x 127).toNat + 128] = [x.toNat % 128 + 128]
    rw [js_and_127_eq x h0 h1]
    rfl
  | succ f ih =>
    intro x h0 h1
    show (if js_shr7 x > 0 then ((js_and x 127).toNat + 128) :: uvar_lsb_to_msb f (js_shr7 x)
      else [(js_and x 127).toNat + 128]) = _
    have hrec : natChunksLE (f + 1) x.toNat =
        if x.toNat / 128 > 0 then (x.toNat % 128 + 128) :: natChunksLE f (x.toNat / 128)
        else [x.toNat % 128 + 128] := rfl
    rw [js_and_127_eq x h0 h1, js_shr7_eq x h0 h1, hrec]
    by_cases hq : x.toNat / 128 > 0
    · rw [if_pos (show ((x.toNat / 128 : Nat) : Int) > 0 from by exact_mod_cast hq), if_pos hq,
        ih _ (by omega) (by omega)]
      rfl
    · rw [if_neg (show ¬((x.toNat / 128 : Nat) : Int) > 0 from by omega), if_neg hq]
      rfl

theorem natChunksLE_raw_spec :
    ∀ (fuel m : Nat), m < 128 ^ (fuel + 1) →
      (∀ c ∈ (natChunksLE fuel m), 128 ≤ c ∧ c < 256) ∧
      ∀ acc, digitsVal acc (natChunksLE fuel m).reverse =
        acc * 128 ^ (natChunksLE fuel m).length + m := by
  intro fuel
  induction fuel with
  | zero =>
    intro m hm
    rw [pow_one] at hm
    constructor
    · intro c hc
      have : c = m % 128 + 128 := by simpa [natChunksLE] using hc
      omega
    · intro acc
      show digitsVal acc [m % 128 + 128] = acc * 128 ^ 1 + m
      show digitsVal (acc * 128 + (m % 128 + 128) % 128) [] = _
      have h2 : (m % 128 + 128) % 128 = m := by omega
      rw [h2]
      simp [digitsVal, pow_one]
  | succ f ih =>
    intro m hm
    by_cases hq : m / 128 > 0
    · have hrec : natChunksLE (f + 1) m = (m % 128 + 128) :: natChunksLE f (m / 128) := by
        rw [natChunksLE, if_pos hq]
      have hm2 : m / 128 < 128 ^ (f + 1) := by
        rw [Nat.div_lt_iff_lt_mul (by norm_num)]
        calc m < 128 ^ (f + 1 + 1) := hm
          _ = 128 ^ (f + 1) * 128 := by rw [pow_succ]
      obtain ⟨helem, hval⟩ := ih (m / 128) hm2
      constructor
      · intro c hc
        rw [hrec] at hc
        rcases List.mem_cons.mp hc with h | h
        · omega
        · exact helem c h
      · intro acc
        rw [hrec]
        rw [List.reverse_cons, digitsVal_append, hval acc]
        show digitsVal _ [_] = _
        show digitsVal ((acc * 128 ^ (natChunksLE f (m / 128)).length + m / 128) * 128 +
          (m % 128 + 128) % 128) [] = _
        have h2 : (m % 128 + 128) % 128 = m % 128 := by omega
        rw [h2]
        show (acc * 128 ^ (natChunksLE f (m / 128)).length + m / 128) * 128 + m % 128 = _
        rw [List.length_cons, pow_succ]
        have hdm := Nat.div_add_mod m 128
        ring_nf
        ring_nf at hdm ⊢
        omega
    · have hrec : natChunksLE (f + 1) m = [m % 128 + 128] := by
        rw [natChunksLE, if_neg hq]
      have hm128 : m < 128 := by omega
      rw [hrec]
      constructor
      · intro c hc
        have : c = m % 128 + 128 := by simpa using hc
        omega
      · intro acc
        show digitsVal (acc * 128 + (m % 128 + 128) % 128) [] = acc * 128 ^ 1 + m
        have h2 : (m % 128 + 128) % 128 = m := by omega
        rw [h2]
        simp [digitsVal, pow_one]

theorem encode_uvar_element_eq (x : Int) (h0 : 0 ≤ x) (h1 : x < 2 ^ 31) :
    encode_uvar_element x =
      (natChunksLE 40 x.toNat).tail.reverse ++ [x.toNat % 128] := by
  unfold encode_uvar_element
  have habs : x * (if x ≥ 0 then 1 else -1) = x := by
    rw [if_pos h0, mul_one]
  rw [habs]
  show (List.modifyHead (· &&& 127) (uvar_lsb_to_msb 40 x)).reverse = _
  rw [uvar_lsb_to_msb_eq_natChunksLE 40 x h0 h1]
  have hhead : ∃ t, natChunksLE 40 x.toNat = (x.toNat % 128 + 128) :: t ∧
      t = (natChunksLE 40 x.toNat).tail := by
    show ∃ t, (if x.toNat / 128 > 0 then _ else _) = _ ∧ _
    by_cases hq : x.toNat / 128 > 0 <;> simp [natChunksLE, hq]
  obtain ⟨t, ht, htt⟩ := hhead
  rw [ht]
  show ((((x.toNat % 128 + 128)) &&& 127) :: t).reverse = _
  rw [mask_chunk_eq _ (by omega)]
  rw [List.reverse_cons]
  rfl

theorem uvar_bytes_spec (x : Int) (h0 : 0 ≤ x) (h1 : x < 2 ^ 31) :
    encode_uvar_element x ≠ [] ∧
    (∀ c ∈ encode_uvar_element x, c < 256) ∧
    (∀ k, k + 1 < (encode_uvar_element x).length →
      128 ≤ (encode_uvar_element x).getD k 0) ∧
    (encode_uvar_element x).getD ((encode_uvar_element x).length - 1) 0 < 128 ∧
    digitsVal 0 (encode_uvar_element x) = x.toNat := by
  have hpow : x.toNat < 128 ^ (40 + 1) := by
    have h5 : (2 : Nat) ^ 31 < 128 ^ 5 := by norm_num
    have h41 : (128 : Nat) ^ 5 ≤ 128 ^ (40 + 1) := Nat.pow_le_pow_right (by norm_num) (by norm_num)
    omega
  obtain ⟨helem, hval⟩ := natChunksLE_raw_spec 40 x.toNat hpow
  rw [encode_uvar_element_eq x h0 h1]
  have hheadform : ∃ t, natChunksLE 40 x.toNat = (x.toNat % 128 + 128) :: t := by
    show ∃ t, (if x.toNat / 128 > 0 then _ else _) = _
    by_cases hq : x.toNat / 128 > 0 <;> simp [natChunksLE, hq]
  obtain ⟨t, ht⟩ := hheadform
  have htail : (natChunksLE 40 x.toNat).tail = t := by rw [ht]; rfl
  rw [htail]
  have htelem : ∀ c ∈ t, 128 ≤ c ∧ c < 256 := by
    intro c hc
    exact helem c (by rw [ht]; exact List.mem_cons_of_mem _ hc)
  have hlen : (t.reverse ++ [x.toNat % 128]).length = t.length + 1 := by
    rw [List.length_append, List.length_reverse]
    rfl
  refine ⟨by simp, ?_, ?_, ?_, ?_⟩
  · intro c hc
    rcases List.mem_append.mp hc with h | h
    · exact (htelem c (List.mem_reverse.mp h)).2
    · have : c = x.toNat % 128 := by simpa using h
      omega
  · intro k hk
    rw [hlen] at hk
    have hk2 : k < t.reverse.length := by rw [List.length_reverse]; omega
    rw [List.getD_append _ _ 0 k hk2]
    rw [List.getD_eq_getElem?_getD, List.getElem?_eq_getElem hk2]
    have hmem : t.reverse[k] ∈ t.reverse := List.getElem_mem _
    exact (htelem _ (List.mem_reverse.mp hmem)).1
  · rw [hlen]
    rw [List.getD_append_right _ _ 0 _ (by rw [List.length_reverse]; omega)]
    rw [List.length_reverse]
    have : t.length + 1 - 1 - t.length = 0 := by omega
    rw [this]
    show x.toNat % 128 < 128
    omega
  · have hv := hval 0
    rw [ht, List.reverse_cons, digitsVal_append] at hv
    have hv1 : digitsVal (digitsVal 0 t.reverse) [x.toNat % 128 + 128] =
        digitsVal 0 t.reverse * 128 + x.toNat % 128 := by
      show digitsVal (digitsVal 0 t.reverse * 128 + (x.toNat % 128 + 128) % 128) [] = _
      have hmm : (x.toNat % 128 + 128) % 128 = x.toNat % 128 := by omega
      rw [hmm]
      rfl
    rw [hv1, Nat.zero_mul, Nat.zero_add] at hv
    rw [digitsVal_append]
    show digitsVal (digitsVal 0 t.reverse * 128 + x.toNat % 128 % 128) [] = x.toNat
    have hmm2 : x.toNat % 128 % 128 = x.toNat % 128 := by omega
    rw [hmm2]
    exact hv

/-! ## Variable-length integer codec: decoder loop lemmas -/

theorem getD_append_mid (pre cs post : List Nat) (k : Nat) (hk : k < cs.length) :
    (pre ++ cs ++ post).getD (pre.length + k) 0 = cs.getD k 0 := by
  rw [List.append_assoc, List.getD_append_right pre (cs ++ post) 0 _ (by omega)]
  have h1 : pre.length + k - pre.length = k := by omega
  rw [h1]
  exact List.getD_append cs post 0 k hk

theorem shiftRight7_eq_zero (c : Nat) (h : c < 128) : c >>> 7 = 0 := by
  rw [Nat.shiftRight_eq_div_pow]
  have : (2 : Nat) ^ 7 = 128 := by norm_num
  rw [this]
  omega

theorem shiftRight7_ne_zero (c : Nat) (h1 : 128 ≤ c) : c >>> 7 ≠ 0 := by
  rw [Nat.shiftRight_eq_div_pow]
  have : (2 : Nat) ^ 7 = 128 := by norm_num
  rw [this]
  omega

theorem decode_uvar_go_some_zero (buf : List Nat) (v : Int) (arr : List Int)
    (byte q fuel : Nat) :
    decode_uvar_go buf (some 0) v arr byte (q + 1) fuel = (arr, q) := by
  cases fuel with
  | zero => rfl
  | succ f =>
    show (if alPos (some 0) = true then _ else (arr, q + 1 - 1)) = (arr, q)
    rw [if_neg (by decide)]
    simp

theorem decode_uvar_go_digits (buf : List Nat) :
    ∀ (cs : List Nat) (acc : Nat) (p : Nat) (al : Option Nat) (arr : List Int),
      alPos al = true →
      (∀ k, k < cs.length → buf.getD (p + k) 0 = cs.getD k 0) →
      p + cs.length ≤ buf.length →
      (∀ c ∈ cs, c < 256) →
      (∀ k, k + 1 < cs.length → 128 ≤ cs.getD k 0) →
      cs ≠ [] →
      cs.getD (cs.length - 1) 0 < 128 →
      digitsVal acc cs < 2 ^ 31 →
      decode_uvar_go buf al (acc : Int) arr (buf.getD p 0) (p + 1) (buf.length - p) =
        decode_uvar_go buf (alDec al) 0 (arr ++ [(digitsVal acc cs : Int)])
          (buf.getD (p + cs.length) 0) (p + cs.length + 1)
          (buf.length - (p + cs.length)) := by
  intro cs
  induction cs with
  | nil =>
    intro acc p al arr _ _ _ _ _ hne _ _
    exact absurd rfl hne
  | cons c cs ih =>
    intro acc p al arr hal hbytes hlen hlt hcont _ hlast hbound
    have hc : buf.getD p 0 = c := by
      have h := hbytes 0 (by simp)
      simpa using h
    have hlen2 : p + (cs.length + 1) ≤ buf.length := by
      have := hlen
      rw [List.length_cons] at this
      omega
    have hfuel : buf.length - p = (buf.length - (p + 1)) + 1 := by omega
    have hc256 : c < 256 := hlt c (List.mem_cons_self c cs)
    have hmono : acc * 128 + c % 128 ≤ digitsVal acc (c :: cs) := digitsVal_ge cs _
    have hacc128 : acc * 128 + c % 128 < 2 ^ 31 := lt_of_le_of_lt hmono hbound
    have hshl : js_shl7 ((acc : Nat) : Int) + ((c &&& 127 : Nat) : Int) =
        ((acc * 128 + c % 128 : Nat) : Int) := by
      rw [land_127_eq_mod, js_shl7_eq _ (by omega) (by push_cast; omega)]
      push_cast
      ring
    rw [hc, hfuel]
    have hstep : decode_uvar_go buf al ((acc : Nat) : Int) arr c (p + 1)
        ((buf.length - (p + 1)) + 1) =
        if alPos al = true then
          if c >>> 7 = 0 then
            decode_uvar_go buf (alDec al) 0
              (arr ++ [js_shl7 ((acc : Nat) : Int) + ((c &&& 127 : Nat) : Int)])
              (buf.getD (p + 1) 0) (p + 1 + 1) (buf.length - (p + 1))
          else
            decode_uvar_go buf al (js_shl7 ((acc : Nat) : Int) + ((c &&& 127 : Nat) : Int))
              arr (buf.getD (p + 1) 0) (p + 1 + 1) (buf.length - (p + 1))
        else (arr, p + 1 - 1) := rfl
    rw [hstep, if_pos hal, hshl]
    cases cs with
    | nil =>
      have hcl : c < 128 := by
        have := hlast
        simpa using this
      rw [if_pos (shiftRight7_eq_zero c hcl)]
      show _ = decode_uvar_go buf (alDec al) 0 (arr ++ [((digitsVal acc [c] : Nat) : Int)])
        (buf.getD (p + 1) 0) (p + 1 + 1) (buf.length - (p + 1))
      rfl
    | cons c2 cs2 =>
      have hcc : 128 ≤ c := by
        have := hcont 0 (by simp)
        simpa using this
      rw [if_neg (shiftRight7_ne_zero c hcc)]
      have hih := ih (acc * 128 + c % 128) (p + 1) al arr hal
        (by
          intro k hk
          have := hbytes (k + 1) (by simpa using Nat.succ_lt_succ hk)
          rw [show p + (k + 1) = p + 1 + k by omega] at this
          simpa using this)
        (by rw [List.length_cons] at hlen2 ⊢; omega)
        (by intro d hd; exact hlt d (List.mem_cons_of_mem c hd))
        (by
          intro k hk
          have := hcont (k + 1) (by rw [List.length_cons]; omega)
          simpa using this)
        (by simp)
        (by
          have := hlast
          rw [List.length_cons, List.length_cons] at this
          have h2 : (c :: c2 :: cs2).getD (cs2.length + 1 + 1 - 1) 0 =
              (c2 :: cs2).getD (cs2.length + 1 - 1) 0 := by
            rw [show cs2.length + 1 + 1 - 1 = (cs2.length + 1 - 1) + 1 by omega]
            rfl
          rw [List.length_cons]
          rw [h2] at this
          exact this)
        hbound
      rw [hih]
      have hfix : p + 1 + (c2 :: cs2).length = p + (c :: c2 :: cs2).length := by
        rw [List.length_cons, List.length_cons, List.length_cons]
        omega
      rw [hfix]
      rfl

theorem encode_uvar_array_cons (v : Int) (vs : List Int) :
    encode_uvar_array (v :: vs) = encode_uvar_element v ++ encode_uvar_array vs := by
  simp [encode_uvar_array]

theorem decode_uvar_go_encode_list (post : List Nat) :
    ∀ (vs : List Int) (pre : List Nat) (arr : List Int),
      (∀ v ∈ vs, 0 ≤ v ∧ v < 2 ^ 31) →
      decode_uvar_go (pre ++ encode_uvar_array vs ++ post) (some vs.length) 0 arr
        ((pre ++ encode_uvar_array vs ++ post).getD pre.length 0) (pre.length + 1)
        ((pre ++ encode_uvar_array vs ++ post).length - pre.length) =
      (arr ++ vs, pre.length + (encode_uvar_array vs).length) := by
  intro vs
  induction vs with
  | nil =>
    intro pre arr _
    rw [show ([] : List Int).length = 0 from rfl]
    rw [decode_uvar_go_some_zero]
    simp [encode_uvar_array]
  | cons v vs ih =>
    intro pre arr hvs
    obtain ⟨hv0, hv1⟩ := hvs v (List.mem_cons_self v vs)
    have hspec := uvar_bytes_spec v hv0 hv1
    obtain ⟨hne, hlt, hcont, hlast, hval⟩ := hspec
    have hassoc : pre ++ encode_uvar_array (v :: vs) ++ post =
        pre ++ encode_uvar_element v ++ (encode_uvar_array vs ++ post) := by
      rw [encode_uvar_array_cons]
      simp [List.append_assoc]
    rw [hassoc]
    set buf := pre ++ encode_uvar_element v ++ (encode_uvar_array vs ++ post) with hbuf
    have hlenbuf : buf.length =
        pre.length + (encode_uvar_element v).length +
          ((encode_uvar_array vs).length + post.length) := by
      rw [hbuf]
      simp [List.length_append]
      omega
    have hdig := decode_uvar_go_digits buf (encode_uvar_element v) 0 pre.length
      (some (vs.length + 1)) arr (by simp [alPos])
      (by
        intro k hk
        rw [hbuf]
        exact getD_append_mid pre (encode_uvar_element v) (encode_uvar_array vs ++ post) k hk)
      (by rw [hlenbuf]; omega)
      hlt hcont hne hlast
      (by rw [hval]; omega)
    rw [show ((0 : Nat) : Int) = (0 : Int) from rfl] at hdig
    rw [show (v :: vs).length = vs.length + 1 from rfl]
    rw [hdig]
    have halDec : alDec (some (vs.length + 1)) = some vs.length := by
      show some (vs.length + 1 - 1) = some vs.length
      rw [Nat.add_sub_cancel]
    rw [halDec, hval]
    have hcastv : ((v.toNat : Nat) : Int) = v := by omega
    rw [hcastv]
    have hpre2 : pre.length + (encode_uvar_element v).length =
        (pre ++ encode_uvar_element v).length := by
      rw [List.length_append]
    have hassoc2 : buf = (pre ++ encode_uvar_element v) ++ encode_uvar_array vs ++ post := by
      rw [hbuf]
      simp [List.append_assoc]
    rw [hpre2, hassoc2]
    rw [ih (pre ++ encode_uvar_element v) (arr ++ [v])
      (by intro w hw; exact hvs w (List.mem_cons_of_mem v hw))]
    rw [encode_uvar_array_cons, List.length_append]
    have hfin : pre.length + (encode_uvar_element v).length + (encode_uvar_array vs).length =
        pre.length + ((encode_uvar_element v).length + (encode_uvar_array vs).length) := by
      omega
    rw [hfin]
    simp [List.append_assoc, List.length_append]

/-! ## Variable-length integer codec: the signed variant -/

theorem ivar_lsb_to_msb_eq_natIChunksLE (sign : Int) :
    ∀ (fuel : Nat) (x : Int), 0 ≤ x → x < 2 ^ 31 →
      ivar_lsb_to_msb sign fuel x =
        natIChunksLE (if sign = -1 then 192 else 128) fuel x.toNat := by
  intro fuel
  induction fuel with
  | zero =>
    intro x h0 h1
    show [(js_and x 63).toNat ||| (if sign = -1 then 192 else 128)] = _
    rw [js_and_63_eq x h0 h1]
    rfl
  | succ f ih =>
    intro x h0 h1
    show (if x > 63 then ((js_and x 127).toNat + 128) :: ivar_lsb_to_msb sign f (js_shr7 x)
      else [(js_and x 63).toNat ||| (if sign = -1 then 192 else 128)]) = _
    have hrec : natIChunksLE (if sign = -1 then 192 else 128) (f + 1) x.toNat =
        if x.toNat > 63 then
          (x.toNat % 128 + 128) ::
            natIChunksLE (if sign = -1 then 192 else 128) f (x.toNat / 128)
        else [x.toNat % 64 ||| (if sign = -1 then 192 else 128)] := rfl
    rw [hrec]
    by_cases hq : x.toNat > 63
    · rw [if_pos (show x > 63 from by omega), if_pos hq]
      rw [js_and_127_eq x h0 h1, js_shr7_eq x h0 h1, ih _ (by omega) (by omega)]
      rfl
    · rw [if_neg (show ¬x > 63 from by omega), if_neg hq]
      rw [js_and_63_eq x h0 h1]
      rfl

theorem natIChunksLE_raw_spec (sb : Nat) :
    ∀ (fuel m : Nat), m < 64 * 128 ^ fuel →
      ∃ t0 mids, (natIChunksLE sb fuel m).reverse = (t0 ||| sb) :: mids ∧ t0 < 64 ∧
        (∀ c ∈ mids, 128 ≤ c ∧ c < 256) ∧ digitsVal t0 mids = m := by
  intro fuel
  induction fuel with
  | zero =>
    intro m hm
    rw [pow_zero, Nat.mul_one] at hm
    refine ⟨m, [], ?_, hm, by simp, rfl⟩
    show [m % 64 ||| sb].reverse = _
    rw [Nat.mod_eq_of_lt hm]
    rfl
  | succ f ih =>
    intro m hm
    by_cases hq : m > 63
    · have hrec : natIChunksLE sb (f + 1) m = (m % 128 + 128) :: natIChunksLE sb f (m / 128) := by
        rw [natIChunksLE, if_pos hq]
      have hm2 : m / 128 < 64 * 128 ^ f := by
        rw [Nat.div_lt_iff_lt_mul (by norm_num)]
        calc m < 64 * 128 ^ (f + 1) := hm
          _ = 64 * 128 ^ f * 128 := by rw [pow_succ]; ring
      obtain ⟨t0, mids, hrev, ht0, hmids, hval⟩ := ih (m / 128) hm2
      refine ⟨t0, mids ++ [m % 128 + 128], ?_, ht0, ?_, ?_⟩
      · rw [hrec, List.reverse_cons, hrev]
        rfl
      · intro c hc
        rcases List.mem_append.mp hc with h | h
        · exact hmids c h
        · have : c = m % 128 + 128 := by simpa using h
          omega
      · rw [digitsVal_append, hval]
        show digitsVal (m / 128 * 128 + (m % 128 + 128) % 128) [] = m
        have h2 : (m % 128 + 128) % 128 = m % 128 := by omega
        rw [h2]
        show m / 128 * 128 + m % 128 = m
        have := Nat.div_add_mod m 128
        omega
    · have hrec : natIChunksLE sb (f + 1) m = [m % 64 ||| sb] := by
        rw [natIChunksLE, if_neg hq]
      refine ⟨m, [], ?_, by omega, by simp, rfl⟩
      rw [hrec, Nat.mod_eq_of_lt (by omega)]
      rfl

theorem or128_band64 : ∀ t : Nat, t < 64 → ((t ||| 128) &&& 64 = 0 ∧ (t ||| 128) % 64 = t ∧
    128 ≤ t ||| 128 ∧ t ||| 128 < 256 ∧ (t ||| 128) &&& 127 = t) := by decide

theorem or192_band64 : ∀ t : Nat, t < 64 → ((t ||| 192) &&& 64 = 64 ∧ (t ||| 192) % 64 = t ∧
    128 ≤ t ||| 192 ∧ t ||| 192 < 256 ∧ (t ||| 192) &&& 127 = t ||| 64) := by decide

theorem or64_facts : ∀ t : Nat, t < 64 → ((t ||| 64) &&& 64 = 64 ∧ (t ||| 64) % 64 = t ∧
    t ||| 64 < 128) := by decide

/-- a value below 64 has bit 6 clear. -/
theorem band64_of_lt : ∀ t : Nat, t < 64 → t &&& 64 = 0 := by decide

/-- byte-level specification of one encoded ivar element: the shape invariants
of the byte list, the value that the sign-and-magnitude accumulation of the
decoder extracts from it, and the magnitude bound. -/
theorem ivar_bytes_spec (x : Int) (hx : x.natAbs < 2 ^ 31) :
    encode_ivar_element x ≠ [] ∧
    (∀ c ∈ encode_ivar_element x, c < 256) ∧
    (∀ k, k + 1 < (encode_ivar_element x).length →
      128 ≤ (encode_ivar_element x).getD k 0) ∧
    (encode_ivar_element x).getD ((encode_ivar_element x).length - 1) 0 < 128 ∧
    digitsVal ((encode_ivar_element x).getD 0 0 % 64) (encode_ivar_element x).tail =
      x.natAbs ∧
    (if (encode_ivar_element x).getD 0 0 &&& 64 > 0 then (-1 : Int) else 1) =
      (if x < 0 then -1 else 1) := by
  have hsign : (if x ≥ 0 then (1 : Int) else -1) = (if x ≥ 0 then 1 else -1) := rfl
  have hmag0 : 0 ≤ x * (if x ≥ 0 then (1 : Int) else -1) := by
    by_cases h : x ≥ 0
    · rw [if_pos h]; omega
    · rw [if_neg h]; omega
  have hmagN : (x * (if x ≥ 0 then (1 : Int) else -1)).toNat = x.natAbs := by
    by_cases h : x ≥ 0 <;> simp [h] <;> omega
  have hmag1 : x * (if x ≥ 0 then (1 : Int) else -1) < 2 ^ 31 := by
    by_cases h : x ≥ 0 <;> simp [h] <;> omega
  have hsb : ((if (if x ≥ 0 then (1 : Int) else -1) = -1 then (192 : Nat) else 128)) =
      (if x < 0 then 192 else 128) := by
    by_cases h : x ≥ 0
    · rw [if_pos h, if_neg (by norm_num), if_neg (by omega)]
    · rw [if_neg h, if_pos rfl, if_pos (by omega)]
  have hE : encode_ivar_element x =
      (List.modifyHead (· &&& 127)
        (natIChunksLE (if x < 0 then 192 else 128) 40 x.natAbs)).reverse := by
    show (List.modifyHead (· &&& 127)
        (ivar_lsb_to_msb (if x ≥ 0 then (1 : Int) else -1) 40
          (x * (if x ≥ 0 then (1 : Int) else -1)))).reverse = _
    rw [ivar_lsb_to_msb_eq_natIChunksLE _ 40 _ hmag0 hmag1, hmagN, hsb]
  have hpow : x.natAbs < 64 * 128 ^ 40 := by
    have h5 : (2 : Nat) ^ 31 < 64 * 128 ^ 4 := by norm_num
    have h41 : (128 : Nat) ^ 4 ≤ 128 ^ 40 := Nat.pow_le_pow_right (by norm_num) (by norm_num)
    have : 64 * 128 ^ 4 ≤ 64 * 128 ^ 40 := Nat.mul_le_mul_left 64 h41
    omega
  set sb := (if x < 0 then (192 : Nat) else 128) with hsbdef
  have hsbcase : sb = 128 ∨ sb = 192 := by
    rw [hsbdef]
    by_cases h : x < 0 <;> simp [h]
  obtain ⟨t0, mids, hrev, ht0, hmids, hval⟩ := natIChunksLE_raw_spec sb 40 x.natAbs hpow
  -- the chunk list is the reverse of its reverse
  have hchunks : natIChunksLE sb 40 x.natAbs = ((t0 ||| sb) :: mids).reverse := by
    rw [← hrev, List.reverse_reverse]
  rw [hchunks] at hE
  rw [List.reverse_cons] at hE
  cases hm : mids.reverse with
  | nil =>
    have hmids_nil : mids = [] := by
      have := congrArg List.reverse hm
      simpa using this
    rw [hm] at hE
    simp only [List.nil_append] at hE
    have hmod : List.modifyHead (· &&& 127) [t0 ||| sb] = [(t0 ||| sb) &&& 127] := rfl
    rw [hmod, List.reverse_singleton] at hE
    have hb0 : (t0 ||| sb) &&& 127 = if x < 0 then t0 ||| 64 else t0 := by
      rcases hsbcase with h | h <;> rw [h]
      · have h0 : ¬x < 0 := by
          rw [hsbdef] at h
          by_cases hx0 : x < 0
          · rw [if_pos hx0] at h; norm_num at h
          · exact hx0
        rw [if_neg h0]
        exact (or128_band64 t0 ht0).2.2.2.2
      · have h0 : x < 0 := by
          rw [hsbdef] at h
          by_cases hx0 : x < 0
          · exact hx0
          · rw [if_neg hx0] at h; norm_num at h
        rw [if_pos h0]
        exact (or192_band64 t0 ht0).2.2.2.2
    rw [hE, hb0]
    rw [hmids_nil] at hval
    by_cases h0 : x < 0
    · rw [if_pos h0]
      refine ⟨by simp, ?_, ?_, ?_, ?_, ?_⟩
      · intro c hc
        have : c = t0 ||| 64 := by simpa using hc
        have := (or64_facts t0 ht0).2.2
        omega
      · intro k hk
        simp at hk
      · show (t0 ||| 64) < 128
        exact (or64_facts t0 ht0).2.2
      · show digitsVal ((t0 ||| 64) % 64) [] = x.natAbs
        rw [(or64_facts t0 ht0).2.1]
        exact hval
      · show (if (t0 ||| 64) &&& 64 > 0 then (-1 : Int) else 1) = if x < 0 then -1 else 1
        rw [(or64_facts t0 ht0).1, if_pos (by omega), if_pos h0]
    · rw [if_neg h0]
      refine ⟨by simp, ?_, ?_, ?_, ?_, ?_⟩
      · intro c hc
        have : c = t0 := by simpa using hc
        omega
      · intro k hk
        simp at hk
      · show t0 < 128
        omega
      · show digitsVal (t0 % 64) [] = x.natAbs
        rw [Nat.mod_eq_of_lt ht0]
        exact hval
      · show (if t0 &&& 64 > 0 then (-1 : Int) else 1) = if x < 0 then -1 else 1
        rw [band64_of_lt t0 ht0, if_neg (by omega), if_neg h0]
  | cons mh mt =>
    have hmods : List.modifyHead (· &&& 127) (mids.reverse ++ [t0 ||| sb]) =
        ((mh &&& 127) :: mt) ++ [t0 ||| sb] := by
      rw [hm]
      rfl
    rw [hmods] at hE
    have hmh : mh ∈ mids := by
      have : mh ∈ mids.reverse := by rw [hm]; exact List.mem_cons_self mh mt
      exact List.mem_reverse.mp this
    obtain ⟨hmh1, hmh2⟩ := hmids mh hmh
    have hmh127 : mh &&& 127 = mh % 128 := land_127_eq_mod mh
    rw [List.reverse_append, List.reverse_singleton, List.reverse_cons,
      List.singleton_append] at hE
    have hmidseq : mids = mt.reverse ++ [mh] := by
      have h := congrArg List.reverse hm
      simpa using h
    have hb0ge : 128 ≤ t0 ||| sb ∧ t0 ||| sb < 256 := by
      rcases hsbcase with h | h <;> rw [h]
      · exact ⟨(or128_band64 t0 ht0).2.2.1, (or128_band64 t0 ht0).2.2.2.1⟩
      · exact ⟨(or192_band64 t0 ht0).2.2.1, (or192_band64 t0 ht0).2.2.2.1⟩
    have hmtmem : ∀ c ∈ mt.reverse, 128 ≤ c ∧ c < 256 := by
      intro c hc
      apply hmids
      rw [hmidseq]
      exact List.mem_append_left _ hc
    have hlen : (encode_ivar_element x).length = mt.length + 2 := by
      rw [hE]
      simp [List.length_append]
    refine ⟨by rw [hE]; simp, ?_, ?_, ?_, ?_, ?_⟩
    · intro c hc
      rw [hE] at hc
      rcases List.mem_cons.mp hc with h | h
      · omega
      rcases List.mem_append.mp h with h2 | h2
      · exact (hmtmem c h2).2
      · have : c = mh &&& 127 := by simpa using h2
        rw [this, hmh127]
        omega
    · intro k hk
      rw [hlen] at hk
      cases k with
      | zero =>
        rw [hE]
        show 128 ≤ t0 ||| sb
        exact hb0ge.1
      | succ k2 =>
        rw [hE]
        show 128 ≤ (mt.reverse ++ [mh &&& 127]).getD k2 0
        have hk2 : k2 < mt.reverse.length := by rw [List.length_reverse]; omega
        rw [List.getD_append _ _ 0 k2 hk2]
        rw [List.getD_eq_getElem?_getD, List.getElem?_eq_getElem hk2]
        have hmem : mt.reverse[k2] ∈ mt.reverse := List.getElem_mem _
        exact (hmtmem _ hmem).1
    · rw [hlen, hE]
      show (((t0 ||| sb) :: (mt.reverse ++ [mh &&& 127])).getD (mt.length + 1) 0) < 128
      have hstep : ((t0 ||| sb) :: (mt.reverse ++ [mh &&& 127])).getD (mt.length + 1) 0 =
          (mt.reverse ++ [mh &&& 127]).getD mt.length 0 := rfl
      rw [hstep, List.getD_append_right _ _ 0 _ (by rw [List.length_reverse])]
      rw [List.length_reverse, Nat.sub_self]
      show mh &&& 127 < 128
      rw [hmh127]
      omega
    · rw [hE]
      show digitsVal ((t0 ||| sb) % 64) (mt.reverse ++ [mh &&& 127]) = x.natAbs
      have hmod64 : (t0 ||| sb) % 64 = t0 := by
        rcases hsbcase with h | h <;> rw [h]
        · exact (or128_band64 t0 ht0).2.1
        · exact (or192_band64 t0 ht0).2.1
      rw [hmod64, digitsVal_append]
      rw [hmidseq, digitsVal_append] at hval
      have hv1 : digitsVal (digitsVal t0 mt.reverse) [mh] =
          digitsVal t0 mt.reverse * 128 + mh % 128 := rfl
      have hv2 : digitsVal (digitsVal t0 mt.reverse) [mh &&& 127] =
          digitsVal t0 mt.reverse * 128 + (mh &&& 127) % 128 := rfl
      rw [hv1] at hval
      rw [hv2, hmh127]
      have : mh % 128 % 128 = mh % 128 := by omega
      rw [this]
      exact hval
    · rw [hE]
      show (if ((t0 ||| sb) &&& 64) > 0 then (-1 : Int) else 1) = _
      rcases hsbcase with h | h
      · have h0 : ¬x < 0 := by
          rw [hsbdef] at h
          by_cases hx0 : x < 0
          · rw [if_pos hx0] at h; norm_num at h
          · exact hx0
        rw [h, (or128_band64 t0 ht0).1, if_neg (by omega), if_neg h0]
      · have h0 : x < 0 := by
          rw [hsbdef] at h
          by_cases hx0 : x < 0
          · exact hx0
          · rw [if_neg hx0] at h; norm_num at h
        rw [h, (or192_band64 t0 ht0).1, if_pos (by omega), if_pos h0]

/-! ## Signed variable-length decoder loop lemmas -/

theorem decode_ivar_go_some_zero (buf : List Nat) (s v : Int) (arr : List Int)
    (byte q fuel : Nat) :
    decode_ivar_go buf (some 0) s v arr byte (q + 1) fuel = (arr, q) := by
  cases fuel with
  | zero => rfl
  | succ f =>
    show (if alPos (some 0) = true then _ else (arr, q + 1 - 1)) = (arr, q)
    rw [if_neg (by decide)]
    simp

theorem decode_ivar_go_cont (buf : List Nat) (s : Int) (hs : ¬s = 0) :
    ∀ (cs : List Nat) (acc : Nat) (p : Nat) (al : Option Nat) (arr : List Int),
      alPos al = true →
      (∀ k, k < cs.length → buf.getD (p + k) 0 = cs.getD k 0) →
      p + cs.length ≤ buf.length →
      (∀ c ∈ cs, c < 256) →
      (∀ k, k + 1 < cs.length → 128 ≤ cs.getD k 0) →
      cs ≠ [] →
      cs.getD (cs.length - 1) 0 < 128 →
      digitsVal acc cs < 2 ^ 31 →
      decode_ivar_go buf al s (acc : Int) arr (buf.getD p 0) (p + 1) (buf.length - p) =
        decode_ivar_go buf (alDec al) 0 0 (arr ++ [((digitsVal acc cs : Nat) : Int) * s])
          (buf.getD (p + cs.length) 0) (p + cs.length + 1)
          (buf.length - (p + cs.length)) := by
  intro cs
  induction cs with
  | nil =>
    intro acc p al arr _ _ _ _ _ hne _ _
    exact absurd rfl hne
  | cons c cs ih =>
    intro acc p al arr hal hbytes hlen hlt hcont _ hlast hbound
    have hc : buf.getD p 0 = c := by
      have h := hbytes 0 (by simp)
      simpa using h
    have hlen2 : p + (cs.length + 1) ≤ buf.length := by
      have := hlen
      rw [List.length_cons] at this
      omega
    have hfuel : buf.length - p = (buf.length - (p + 1)) + 1 := by omega
    have hc256 : c < 256 := hlt c (List.mem_cons_self c cs)
    have hmono : acc * 128 + c % 128 ≤ digitsVal acc (c :: cs) := digitsVal_ge cs _
    have hacc128 : acc * 128 + c % 128 < 2 ^ 31 := lt_of_le_of_lt hmono hbound
    have hshl : js_shl7 ((acc : Nat) : Int) + ((c &&& 127 : Nat) : Int) =
        ((acc * 128 + c % 128 : Nat) : Int) := by
      rw [land_127_eq_mod, js_shl7_eq _ (by omega) (by push_cast; omega)]
      push_cast
      ring
    rw [hc, hfuel]
    have hstep : decode_ivar_go buf al s ((acc : Nat) : Int) arr c (p + 1)
        ((buf.length - (p + 1)) + 1) =
        if alPos al = true then
          if c >>> 7 = 0 then
            decode_ivar_go buf (alDec al) 0 0
              (arr ++ [(if s = 0 then ((c &&& 63 : Nat) : Int)
                  else js_shl7 ((acc : Nat) : Int) + ((c &&& 127 : Nat) : Int)) *
                (if s = 0 then (if c &&& 64 > 0 then -1 else 1) else s)])
              (buf.getD (p + 1) 0) (p + 1 + 1) (buf.length - (p + 1))
          else
            decode_ivar_go buf al (if s = 0 then (if c &&& 64 > 0 then -1 else 1) else s)
              (if s = 0 then ((c &&& 63 : Nat) : Int)
                else js_shl7 ((acc : Nat) : Int) + ((c &&& 127 : Nat) : Int))
              arr (buf.getD (p + 1) 0) (p + 1 + 1) (buf.length - (p + 1))
        else (arr, p + 1 - 1) := rfl
    rw [hstep, if_pos hal, if_neg hs, if_neg hs, hshl]
    cases cs with
    | nil =>
      have hcl : c < 128 := by
        have := hlast
        simpa using this
      rw [if_pos (shiftRight7_eq_zero c hcl)]
      show _ = decode_ivar_go buf (alDec al) 0 0
        (arr ++ [((digitsVal acc [c] : Nat) : Int) * s])
        (buf.getD (p + 1) 0) (p + 1 + 1) (buf.length - (p + 1))
      rfl
    | cons c2 cs2 =>
      have hcc : 128 ≤ c := by
        have := hcont 0 (by simp)
        simpa using this
      rw [if_neg (shiftRight7_ne_zero c hcc)]
      have hih := ih (acc * 128 + c % 128) (p + 1) al arr hal
        (by
          intro k hk
          have := hbytes (k + 1) (by simpa using Nat.succ_lt_succ hk)
          rw [show p + (k + 1) = p + 1 + k by omega] at this
          simpa using this)
        (by rw [List.length_cons] at hlen2 ⊢; omega)
        (by intro d hd; exact hlt d (List.mem_cons_of_mem c hd))
        (by
          intro k hk
          have := hcont (k + 1) (by rw [List.length_cons]; omega)
          simpa using this)
        (by simp)
        (by
          have := hlast
          rw [List.length_cons, List.length_cons] at this
          have h2 : (c :: c2 :: cs2).getD (cs2.length + 1 + 1 - 1) 0 =
              (c2 :: cs2).getD (cs2.length + 1 - 1) 0 := by
            rw [show cs2.length + 1 + 1 - 1 = (cs2.length + 1 - 1) + 1 by omega]
            rfl
          rw [List.length_cons]
          rw [h2] at this
          exact this)
        hbound
      rw [hih]
      have hfix : p + 1 + (c2 :: cs2).length = p + (c :: c2 :: cs2).length := by
        rw [List.length_cons, List.length_cons, List.length_cons]
        omega
      rw [hfix]
      rfl

theorem decode_ivar_go_value (buf : List Nat) (cs : List Nat) (p : Nat)
    (al : Option Nat) (arr : List Int)
    (hal : alPos al = true)
    (hbytes : ∀ k, k < cs.length → buf.getD (p + k) 0 = cs.getD k 0)
    (hlen : p + cs.length ≤ buf.length)
    (hlt : ∀ c ∈ cs, c < 256)
    (hcont : ∀ k, k + 1 < cs.length → 128 ≤ cs.getD k 0)
    (hne : cs ≠ [])
    (hlast : cs.getD (cs.length - 1) 0 < 128)
    (hbound : digitsVal (cs.getD 0 0 % 64) cs.tail < 2 ^ 31) :
    decode_ivar_go buf al 0 0 arr (buf.getD p 0) (p + 1) (buf.length - p) =
      decode_ivar_go buf (alDec al) 0 0
        (arr ++ [((digitsVal (cs.getD 0 0 % 64) cs.tail : Nat) : Int) *
          (if cs.getD 0 0 &&& 64 > 0 then -1 else 1)])
        (buf.getD (p + cs.length) 0) (p + cs.length + 1)
        (buf.length - (p + cs.length)) := by
  cases cs with
  | nil => exact absurd rfl hne
  | cons c cs2 =>
    have hc : buf.getD p 0 = c := by
      have h := hbytes 0 (by simp)
      simpa using h
    have hlen2 : p + (cs2.length + 1) ≤ buf.length := by
      have := hlen
      rw [List.length_cons] at this
      omega
    have hfuel : buf.length - p = (buf.length - (p + 1)) + 1 := by omega
    rw [hc, hfuel]
    have hstep : decode_ivar_go buf al 0 0 arr c (p + 1)
        ((buf.length - (p + 1)) + 1) =
        if alPos al = true then
          if c >>> 7 = 0 then
            decode_ivar_go buf (alDec al) 0 0
              (arr ++ [(if (0 : Int) = 0 then ((c &&& 63 : Nat) : Int)
                  else js_shl7 0 + ((c &&& 127 : Nat) : Int)) *
                (if (0 : Int) = 0 then (if c &&& 64 > 0 then -1 else 1) else 0)])
              (buf.getD (p + 1) 0) (p + 1 + 1) (buf.length - (p + 1))
          else
            decode_ivar_go buf al
              (if (0 : Int) = 0 then (if c &&& 64 > 0 then -1 else 1) else 0)
              (if (0 : Int) = 0 then ((c &&& 63 : Nat) : Int)
                else js_shl7 0 + ((c &&& 127 : Nat) : Int))
              arr (buf.getD (p + 1) 0) (p + 1 + 1) (buf.length - (p + 1))
        else (arr, p + 1 - 1) := rfl
    rw [hstep, if_pos hal, if_pos rfl, if_pos rfl]
    have hsgn : ¬(if c &&& 64 > 0 then (-1 : Int) else 1) = 0 := by
      by_cases h : c &&& 64 > 0
      · rw [if_pos h]; norm_num
      · rw [if_neg h]; norm_num
    have h63 : (c &&& 63) = c % 64 := land_63_eq_mod c
    cases cs2 with
    | nil =>
      have hcl : c < 128 := by
        have := hlast
        simpa using this
      rw [if_pos (shiftRight7_eq_zero c hcl)]
      rw [h63]
      show _ = decode_ivar_go buf (alDec al) 0 0
        (arr ++ [((digitsVal (c % 64) [] : Nat) : Int) *
          (if c &&& 64 > 0 then -1 else 1)])
        (buf.getD (p + 1) 0) (p + 1 + 1) (buf.length - (p + 1))
      rfl
    | cons c2 cs3 =>
      have hcc : 128 ≤ c := by
        have := hcont 0 (by simp)
        simpa using this
      rw [if_neg (shiftRight7_ne_zero c hcc)]
      rw [h63]
      have hrec := decode_ivar_go_cont buf (if c &&& 64 > 0 then (-1 : Int) else 1) hsgn
        (c2 :: cs3) (c % 64) (p + 1) al arr hal
        (by
          intro k hk
          have := hbytes (k + 1) (by simpa using Nat.succ_lt_succ hk)
          rw [show p + (k + 1) = p + 1 + k by omega] at this
          simpa using this)
        (by rw [List.length_cons] at hlen2 ⊢; omega)
        (by intro d hd; exact hlt d (List.mem_cons_of_mem c hd))
        (by
          intro k hk
          have := hcont (k + 1) (by rw [List.length_cons]; omega)
          simpa using this)
        (by simp)
        (by
          have := hlast
          rw [List.length_cons, List.length_cons] at this
          have h2 : (c :: c2 :: cs3).getD (cs3.length + 1 + 1 - 1) 0 =
              (c2 :: cs3).getD (cs3.length + 1 - 1) 0 := by
            rw [show cs3.length + 1 + 1 - 1 = (cs3.length + 1 - 1) + 1 by omega]
            rfl
          rw [List.length_cons]
          rw [h2] at this
          exact this)
        hbound
      rw [hrec]
      have hfix : p + 1 + (c2 :: cs3).length = p + (c :: c2 :: cs3).length := by
        rw [List.length_cons, List.length_cons, List.length_cons]
        omega
      rw [hfix]
      rfl

theorem encode_ivar_array_cons (v : Int) (vs : List Int) :
    encode_ivar_array (v :: vs) = encode_ivar_element v ++ encode_ivar_array vs := by
  simp [encode_ivar_array]

theorem decode_ivar_go_encode_list (post : List Nat) :
    ∀ (vs : List Int) (pre : List Nat) (arr : List Int),
      (∀ v ∈ vs, v.natAbs < 2 ^ 31) →
      decode_ivar_go (pre ++ encode_ivar_array vs ++ post) (some vs.length) 0 0 arr
        ((pre ++ encode_ivar_array vs ++ post).getD pre.length 0) (pre.length + 1)
        ((pre ++ encode_ivar_array vs ++ post).length - pre.length) =
      (arr ++ vs, pre.length + (encode_ivar_array vs).length) := by
  intro vs
  induction vs with
  | nil =>
    intro pre arr _
    rw [show ([] : List Int).length = 0 from rfl]
    rw [decode_ivar_go_some_zero]
    simp [encode_ivar_array]
  | cons v vs ih =>
    intro pre arr hvs
    have hv := hvs v (List.mem_cons_self v vs)
    have hspec := ivar_bytes_spec v hv
    obtain ⟨hne, hlt, hcont, hlast, hval, hsgn⟩ := hspec
    have hassoc : pre ++ encode_ivar_array (v :: vs) ++ post =
        pre ++ encode_ivar_element v ++ (encode_ivar_array vs ++ post) := by
      rw [encode_ivar_array_cons]
      simp [List.append_assoc]
    rw [hassoc]
    set buf := pre ++ encode_ivar_element v ++ (encode_ivar_array vs ++ post) with hbuf
    have hlenbuf : buf.length =
        pre.length + (encode_ivar_element v).length +
          ((encode_ivar_array vs).length + post.length) := by
      rw [hbuf]
      simp [List.length_append]
      omega
    have hdig := decode_ivar_go_value buf (encode_ivar_element v) pre.length
      (some (vs.length + 1)) arr (by simp [alPos])
      (by
        intro k hk
        rw [hbuf]
        exact getD_append_mid pre (encode_ivar_element v) (encode_ivar_array vs ++ post) k hk)
      (by rw [hlenbuf]; omega)
      hlt hcont hne hlast
      (by rw [hval]; omega)
    rw [show (v :: vs).length = vs.length + 1 from rfl]
    rw [hdig]
    have halDec : alDec (some (vs.length + 1)) = some vs.length := by
      show some (vs.length + 1 - 1) = some vs.length
      rw [Nat.add_sub_cancel]
    rw [halDec, hval, hsgn]
    have hcastv : ((v.natAbs : Nat) : Int) * (if v < 0 then -1 else 1) = v := by
      by_cases h : v < 0
      · rw [if_pos h]; omega
      · rw [if_neg h]; omega
    rw [hcastv]
    have hpre2 : pre.length + (encode_ivar_element v).length =
        (pre ++ encode_ivar_element v).length := by
      rw [List.length_append]
    have hassoc2 : buf = (pre ++ encode_ivar_element v) ++ encode_ivar_array vs ++ post := by
      rw [hbuf]
      simp [List.append_assoc]
    rw [hpre2, hassoc2]
    rw [ih (pre ++ encode_ivar_element v) (arr ++ [v])
      (by intro w hw; exact hvs w (List.mem_cons_of_mem v hw))]
    rw [encode_ivar_array_cons, List.length_append]
    have hfin : pre.length + (encode_ivar_element v).length + (encode_ivar_array vs).length =
        pre.length + ((encode_ivar_element v).length + (encode_ivar_array vs).length) := by
      omega
    rw [hfin]
    simp [List.append_assoc, List.length_append]

/-! ## Consumption of the variable-length decoders -/

theorem decode_uvar_go_none (buf : List Nat) :
    ∀ (fuel : Nat) (v : Int) (arr : List Int) (byte offset : Nat),
      (decode_uvar_go buf none v arr byte offset fuel).2 = offset + fuel - 1 := by
  intro fuel
  induction fuel with
  | zero =>
    intro v arr byte offset
    rfl
  | succ f ih =>
    intro v arr byte offset
    have hstep : decode_uvar_go buf none v arr byte offset (f + 1) =
        if alPos none = true then
          if byte >>> 7 = 0 then
            decode_uvar_go buf (alDec none) 0
              (arr ++ [js_shl7 v + ((byte &&& 127 : Nat) : Int)])
              (buf.getD offset 0) (offset + 1) f
          else
            decode_uvar_go buf none (js_shl7 v + ((byte &&& 127 : Nat) : Int))
              arr (buf.getD offset 0) (offset + 1) f
        else (arr, offset - 1) := rfl
    rw [hstep, if_pos (show alPos none = true from rfl)]
    by_cases hb : byte >>> 7 = 0
    · rw [if_pos hb]
      show (decode_uvar_go buf none _ _ _ _ f).2 = _
      rw [ih]
      omega
    · rw [if_neg hb]
      rw [ih]
      omega

theorem decode_ivar_go_none (buf : List Nat) :
    ∀ (fuel : Nat) (s v : Int) (arr : List Int) (byte offset : Nat),
      (decode_ivar_go buf none s v arr byte offset fuel).2 = offset + fuel - 1 := by
  intro fuel
  induction fuel with
  | zero =>
    intro s v arr byte offset
    rfl
  | succ f ih =>
    intro s v arr byte offset
    have hstep : decode_ivar_go buf none s v arr byte offset (f + 1) =
        if alPos none = true then
          if byte >>> 7 = 0 then
            decode_ivar_go buf (alDec none) 0 0
              (arr ++ [(if s = 0 then ((byte &&& 63 : Nat) : Int)
                  else js_shl7 v + ((byte &&& 127 : Nat) : Int)) *
                (if s = 0 then (if byte &&& 64 > 0 then -1 else 1) else s)])
              (buf.getD offset 0) (offset + 1) f
          else
            decode_ivar_go buf none
              (if s = 0 then (if byte &&& 64 > 0 then -1 else 1) else s)
              (if s = 0 then ((byte &&& 63 : Nat) : Int)
                else js_shl7 v + ((byte &&& 127 : Nat) : Int))
              arr (buf.getD offset 0) (offset + 1) f
        else (arr, offset - 1) := rfl
    rw [hstep, if_pos (show alPos none = true from rfl)]
    by_cases hb : byte >>> 7 = 0
    · rw [if_pos hb]
      show (decode_ivar_go buf none _ _ _ _ _ f).2 = _
      rw [ih]
      omega
    · rw [if_neg hb]
      rw [ih]
      omega

theorem decode_uvar_array_encode (pre post : List Nat) (vs : List Int)
    (h : ∀ v ∈ vs, 0 ≤ v ∧ v < 2 ^ 31) :
    decode_uvar_array (pre ++ encode_uvar_array vs ++ post) pre.length (some vs.length) =
      (vs, (encode_uvar_array vs).length) := by
  have h1 := decode_uvar_go_encode_list post vs pre [] h
  simp only [decode_uvar_array]
  rw [h1]
  simp

theorem decode_ivar_array_encode (pre post : List Nat) (vs : List Int)
    (h : ∀ v ∈ vs, v.natAbs < 2 ^ 31) :
    decode_ivar_array (pre ++ encode_ivar_array vs ++ post) pre.length (some vs.length) =
      (vs, (encode_ivar_array vs).length) := by
  have h1 := decode_ivar_go_encode_list post vs pre [] h
  simp only [decode_ivar_array]
  rw [h1]
  simp

/-- C6: without an element count, both variable-length array decoders consume
exactly the bytes from the starting offset to the end of the buffer; with an
element count `n`, they consume exactly the bytes of the first `n`
self-terminated values and nothing past them, whatever bytes follow (in
particular bytes with the continuation bit set). -/
theorem decode_var_array_consumption :
    (∀ (buf : List Nat) (offset : Nat), offset ≤ buf.length →
      (decode_uvar_array buf offset none).2 = buf.length - offset ∧
      (decode_ivar_array buf offset none).2 = buf.length - offset) ∧
    (∀ (vs : List Int) (pre post : List Nat), (∀ v ∈ vs, 0 ≤ v ∧ v < 2 ^ 31) →
      decode_uvar_array (pre ++ encode_uvar_array vs ++ post) pre.length (some vs.length) =
        (vs, (encode_uvar_array vs).length)) ∧
    (∀ (vs : List Int) (pre post : List Nat), (∀ v ∈ vs, v.natAbs < 2 ^ 31) →
      decode_ivar_array (pre ++ encode_ivar_array vs ++ post) pre.length (some vs.length) =
        (vs, (encode_ivar_array vs).length)) := by
  refine ⟨?_, ?_, ?_⟩
  · intro buf offset hoff
    constructor
    · show (decode_uvar_go buf none 0 [] (buf.getD offset 0) (offset + 1)
          (buf.length - offset)).2 - offset = buf.length - offset
      rw [decode_uvar_go_none]
      omega
    · show (decode_ivar_go buf none 0 0 [] (buf.getD offset 0) (offset + 1)
          (buf.length - offset)).2 - offset = buf.length - offset
      rw [decode_ivar_go_none]
      omega
  · intro vs pre post h
    exact decode_uvar_array_encode pre post vs h
  · intro vs pre post h
    exact decode_ivar_array_encode pre post vs h

theorem decode_var_array_consumption_witness :
    ((decode_uvar_array [5, 200] 0 none).2 = 2 ∧
      (decode_ivar_array [5, 200] 0 none).2 = 2) ∧
    decode_uvar_array ([9] ++ encode_uvar_array [1, 300] ++ [255]) 1 (some 2) =
      ([1, 300], (encode_uvar_array [1, 300]).length) ∧
    decode_ivar_array ([9] ++ encode_ivar_array [-1, 300] ++ [255]) 1 (some 2) =
      ([-1, 300], (encode_ivar_array [-1, 300]).length) :=
  ⟨by
    have h := decode_var_array_consumption.1 [5, 200] 0 (by decide)
    simpa using h,
   by
    have h := decode_var_array_consumption.2.1 [1, 300] [9] [255] (by decide)
    simpa using h,
   by
    have h := decode_var_array_consumption.2.2 [-1, 300] [9] [255] (by decide)
    simpa using h⟩

/-! ## Fixed-width cell layout lemmas -/

theorem natToBytesLE_length : ∀ (k p : Nat), (natToBytesLE k p).length = k := by
  intro k
  induction k with
  | zero => intro p; rfl
  | succ k ih =>
    intro p
    show (p % 256 :: natToBytesLE k (p / 256)).length = k + 1
    rw [List.length_cons, ih]

theorem cellBytes_length (le : Bool) (bpe p : Nat) : (cellBytes le bpe p).length = bpe := by
  unfold cellBytes
  by_cases h : le = true
  · rw [if_pos h, natToBytesLE_length]
  · rw [if_neg h, List.length_reverse, natToBytesLE_length]

theorem bytesToCellLE_natToBytesLE : ∀ (k p : Nat), p < 256 ^ k →
    bytesToCellLE (natToBytesLE k p) = p := by
  intro k
  induction k with
  | zero =>
    intro p hp
    have : p = 0 := by
      have h1 : (256 : Nat) ^ 0 = 1 := by norm_num
      omega
    rw [this]
    rfl
  | succ k ih =>
    intro p hp
    show p % 256 + 256 * bytesToCellLE (natToBytesLE k (p / 256)) = p
    have hdiv : p / 256 < 256 ^ k := by
      rw [Nat.pow_succ, Nat.mul_comm] at hp
      exact Nat.div_lt_of_lt_mul hp
    rw [ih (p / 256) hdiv]
    omega

theorem bytesToCell_cellBytes (le : Bool) (bpe p : Nat) (h : p < 256 ^ bpe) :
    bytesToCell le (cellBytes le bpe p) = p := by
  unfold bytesToCell cellBytes
  by_cases hle : le = true
  · rw [if_pos hle, if_pos hle]
    exact bytesToCellLE_natToBytesLE bpe p h
  · rw [if_neg hle, if_neg hle, List.reverse_reverse]
    exact bytesToCellLE_natToBytesLE bpe p h

theorem flatten_cellBytes_length (le : Bool) (bpe : Nat) :
    ∀ ps : List Nat, ((List.map (cellBytes le bpe) ps).flatten).length = bpe * ps.length := by
  intro ps
  induction ps with
  | nil => simp
  | cons p pt ih =>
    rw [List.map_cons, List.flatten_cons, List.length_append, ih, cellBytes_length,
      List.length_cons, Nat.mul_succ]
    omega

theorem groupCells_empty (le : Bool) (bpe : Nat) : ∀ fuel, groupCells le bpe fuel [] = [] := by
  intro fuel
  cases fuel with
  | zero => rfl
  | succ f => rfl

theorem groupCells_block (le : Bool) (bpe : Nat) (hbpe : 1 ≤ bpe) (cb rest : List Nat)
    (hcb : cb.length = bpe) (f : Nat) :
    groupCells le bpe (f + 1) (cb ++ rest) = bytesToCell le cb :: groupCells le bpe f rest := by
  cases cb with
  | nil =>
    rw [List.length_nil] at hcb
    omega
  | cons b bt =>
    show (if bpe = 0 ∨ (b :: bt ++ rest).length < bpe then []
      else bytesToCell le ((b :: bt ++ rest).take bpe) ::
        groupCells le bpe f ((b :: bt ++ rest).drop bpe)) = _
    have hlen : (b :: bt ++ rest).length = bpe + rest.length := by
      rw [List.cons_append, List.length_cons, List.length_append]
      rw [List.length_cons] at hcb
      omega
    rw [if_neg (by rw [hlen]; omega)]
    have htake : (b :: bt ++ rest).take bpe = b :: bt := by
      rw [← hcb]
      exact List.take_left (b :: bt) rest
    have hdrop : (b :: bt ++ rest).drop bpe = rest := by
      rw [← hcb]
      exact List.drop_left (b :: bt) rest
    rw [htake, hdrop]

theorem groupCells_flatten (le : Bool) (bpe : Nat) (hbpe : 1 ≤ bpe) :
    ∀ (ps : List Nat) (fuel : Nat), ps.length ≤ fuel → (∀ p ∈ ps, p < 256 ^ bpe) →
      groupCells le bpe fuel ((List.map (cellBytes le bpe) ps).flatten) = ps := by
  intro ps
  induction ps with
  | nil =>
    intro fuel _ _
    exact groupCells_empty le bpe fuel
  | cons p pt ih =>
    intro fuel hfuel hps
    rw [List.length_cons] at hfuel
    cases fuel with
    | zero => omega
    | succ f =>
      rw [List.map_cons, List.flatten_cons]
      rw [groupCells_block le bpe hbpe _ _ (cellBytes_length le bpe p) f]
      rw [bytesToCell_cellBytes le bpe p (hps p (List.mem_cons_self p pt))]
      rw [ih f (by omega) (fun q hq => hps q (List.mem_cons_of_mem p hq))]

theorem cellBytes_one (le : Bool) (p : Nat) (h : p < 256) : cellBytes le 1 p = [p] := by
  have h1 : natToBytesLE 1 p = [p] := by
    show [p % 256] = [p]
    rw [Nat.mod_eq_of_lt h]
  unfold cellBytes
  by_cases hle : le = true
  · rw [if_pos hle, h1]
  · rw [if_neg hle, h1, List.reverse_singleton]

theorem flatten_cellBytes_one (le : Bool) :
    ∀ ps : List Nat, (∀ p ∈ ps, p < 256) → (List.map (cellBytes le 1) ps).flatten = ps := by
  intro ps
  induction ps with
  | nil => intro _; rfl
  | cons p pt ih =>
    intro hps
    rw [List.map_cons, List.flatten_cons, cellBytes_one le p (hps p (List.mem_cons_self p pt))]
    rw [ih (fun q hq => hps q (List.mem_cons_of_mem p hq))]
    rfl

theorem jsSubarray_full (l : List Nat) :
    jsSubarray l ((0 : Nat) : Int) ((l.length : Nat) : Int) = l := by
  have h := jsSubarray_natCast l 0 l.length (by omega) (le_refl _)
  simpa using h

theorem swapEndianessFast_nil (bs : Nat) : swapEndianessFast [] bs = [] := by
  have h := swapEndianessFast_length [] bs
  exact List.eq_nil_of_length_eq_zero h

theorem map_store_load (vs : List Int) (st : Int → Nat) (ld : Nat → Int)
    (h : ∀ v ∈ vs, ld (st v) = v) : List.map ld (List.map st vs) = vs := by
  induction vs with
  | nil => rfl
  | cons v t ih =>
    rw [List.map_cons, List.map_cons, h v (List.mem_cons_self v t),
      ih (fun w hw => h w (List.mem_cons_of_mem v hw))]

/-- round trip of the fixed-width branch of the number-array codec, for any
kind string whose constructor data satisfies the hypotheses (all decidable
for each concrete kind) and any value list accepted by the constructor's
write conversion. -/
theorem rt_fw_arr (le : Bool) (type : List Char) (vs : List Int)
    (hsv : type.getD 1 '?' ≠ 'v')
    (hbs : parseIntChar (type.getD 1 '?') = (typed_array_constructor_of type).bytes_per_element)
    (hbpe1 : 1 ≤ (typed_array_constructor_of type).bytes_per_element)
    (hu8 : (typed_array_constructor_of type).is_uint8 = true →
      (typed_array_constructor_of type).bytes_per_element = 1)
    (hvals : ∀ v ∈ vs,
      (typed_array_constructor_of type).load ((typed_array_constructor_of type).store v) = v ∧
      (typed_array_constructor_of type).store v <
        256 ^ (typed_array_constructor_of type).bytes_per_element) :
    decode_number_array le (encode_number_array le vs type) 0 type (some vs.length) =
      (vs, (encode_number_array le vs type).length) := by
  have hps : ∀ p ∈ List.map (typed_array_constructor_of type).store vs,
      p < 256 ^ (typed_array_constructor_of type).bytes_per_element := by
    intro p hp
    obtain ⟨v, hv, rfl⟩ := List.mem_map.mp hp
    exact (hvals v hv).2
  have hload : List.map (typed_array_constructor_of type).load
      (List.map (typed_array_constructor_of type).store vs) = vs :=
    map_store_load vs _ _ (fun v hv => (hvals v hv).1)
  have hencdef : encode_number_array le vs type =
      (if type.getD 1 '?' = 'v' then
        (if type.getD 0 '?' = 'u' then encode_uvar_array vs else encode_ivar_array vs)
      else
        if (typed_array_constructor_of type).is_uint8 = true then
          List.map (typed_array_constructor_of type).store vs
        else
          if (decide (type.getD 2 '?' = 'l') && le || decide (type.getD 2 '?' = 'b') && !le ||
              decide (parseIntChar (type.getD 1 '?') = 1)) = true then
            (List.map (cellBytes le (typed_array_constructor_of type).bytes_per_element)
              (List.map (typed_array_constructor_of type).store vs)).flatten
          else
            swapEndianessFast
              ((List.map (cellBytes le (typed_array_constructor_of type).bytes_per_element)
                (List.map (typed_array_constructor_of type).store vs)).flatten)
              (parseIntChar (type.getD 1 '?'))) := rfl
  rw [if_neg hsv] at hencdef
  have henc2 : encode_number_array le vs type =
      (if (decide (type.getD 2 '?' = 'l') && le || decide (type.getD 2 '?' = 'b') && !le ||
          decide (parseIntChar (type.getD 1 '?') = 1)) = true then
        (List.map (cellBytes le (typed_array_constructor_of type).bytes_per_element)
          (List.map (typed_array_constructor_of type).store vs)).flatten
      else
        swapEndianessFast
          ((List.map (cellBytes le (typed_array_constructor_of type).bytes_per_element)
            (List.map (typed_array_constructor_of type).store vs)).flatten)
          (parseIntChar (type.getD 1 '?'))) := by
    rw [hencdef]
    by_cases hcu : (typed_array_constructor_of type).is_uint8 = true
    · have hb1 : (typed_array_constructor_of type).bytes_per_element = 1 := hu8 hcu
      have hbs1 : parseIntChar (type.getD 1 '?') = 1 := by rw [hbs, hb1]
      have hNB : (decide (type.getD 2 '?' = 'l') && le || decide (type.getD 2 '?' = 'b') && !le ||
          decide (parseIntChar (type.getD 1 '?') = 1)) = true := by
        rw [hbs1]
        simp
      rw [if_pos hcu, if_pos hNB, hb1]
      rw [flatten_cellBytes_one le _ (by
        intro p hp
        have h := hps p hp
        rw [hb1] at h
        have h2 : (256 : Nat) ^ 1 = 256 := by norm_num
        omega)]
    · rw [if_neg hcu]
  have hBlen : (encode_number_array le vs type).length =
      (typed_array_constructor_of type).bytes_per_element * vs.length := by
    rw [henc2]
    by_cases hNB : (decide (type.getD 2 '?' = 'l') && le || decide (type.getD 2 '?' = 'b') && !le ||
        decide (parseIntChar (type.getD 1 '?') = 1)) = true
    · rw [if_pos hNB, flatten_cellBytes_length, List.length_map]
    · rw [if_neg hNB, swapEndianessFast_length, flatten_cellBytes_length, List.length_map]
  cases vs with
  | nil =>
    have hB0 : encode_number_array le ([] : List Int) type = [] := by
      rw [henc2]
      by_cases hNB : (decide (type.getD 2 '?' = 'l') && le || decide (type.getD 2 '?' = 'b') && !le ||
          decide (parseIntChar (type.getD 1 '?') = 1)) = true
      · rw [if_pos hNB]
        rfl
      · rw [if_neg hNB]
        show swapEndianessFast [] (parseIntChar (type.getD 1 '?')) = []
        exact swapEndianessFast_nil _
    rw [hB0]
    show decode_number_array le [] 0 type (some (0 : Nat)) = (([] : List Int), (0 : Nat))
    have hdecdef : decode_number_array le [] 0 type (some (0 : Nat)) =
        (if type.getD 1 '?' = 'v' then
          (if type.getD 0 '?' = 'u' then decode_uvar_array [] 0 (some 0)
            else decode_ivar_array [] 0 (some 0))
        else
          (List.map (typed_array_constructor_of type).load
            (groupCells le (typed_array_constructor_of type).bytes_per_element
              (if (decide (type.getD 2 '?' = 'l') && le || decide (type.getD 2 '?' = 'b') && !le ||
                  decide (parseIntChar (type.getD 1 '?') = 1)) = true then
                ([] : List Nat)
              else swapEndianessFast [] (parseIntChar (type.getD 1 '?'))).length
              (if (decide (type.getD 2 '?' = 'l') && le || decide (type.getD 2 '?' = 'b') && !le ||
                  decide (parseIntChar (type.getD 1 '?') = 1)) = true then
                ([] : List Nat)
              else swapEndianessFast [] (parseIntChar (type.getD 1 '?')))),
            ([] : List Nat).length)) := rfl
    rw [if_neg hsv] at hdecdef
    rw [hdecdef]
    have hsw : (if (decide (type.getD 2 '?' = 'l') && le || decide (type.getD 2 '?' = 'b') && !le ||
        decide (parseIntChar (type.getD 1 '?') = 1)) = true then
          ([] : List Nat)
        else swapEndianessFast [] (parseIntChar (type.getD 1 '?'))) = [] := by
      by_cases hNB : (decide (type.getD 2 '?' = 'l') && le || decide (type.getD 2 '?' = 'b') && !le ||
          decide (parseIntChar (type.getD 1 '?') = 1)) = true
      · rw [if_pos hNB]
      · rw [if_neg hNB]
        exact swapEndianessFast_nil _
    rw [hsw]
    rfl
  | cons v0 vs' =>
    have hdecdef : decode_number_array le (encode_number_array le (v0 :: vs') type) 0 type
        (some (v0 :: vs').length) =
        (if type.getD 1 '?' = 'v' then
          (if type.getD 0 '?' = 'u' then
            decode_uvar_array (encode_number_array le (v0 :: vs') type) 0 (some (v0 :: vs').length)
          else
            decode_ivar_array (encode_number_array le (v0 :: vs') type) 0 (some (v0 :: vs').length))
        else
          (List.map (typed_array_constructor_of type).load
            (groupCells le (typed_array_constructor_of type).bytes_per_element
              (if (decide (type.getD 2 '?' = 'l') && le || decide (type.getD 2 '?' = 'b') && !le ||
                  decide (parseIntChar (type.getD 1 '?') = 1)) = true then
                jsSubarray (encode_number_array le (v0 :: vs') type) ((0 : Nat) : Int)
                  ((0 + parseIntChar (type.getD 1 '?') * (v0 :: vs').length : Nat) : Int)
              else
                swapEndianessFast
                  (jsSubarray (encode_number_array le (v0 :: vs') type) ((0 : Nat) : Int)
                    ((0 + parseIntChar (type.getD 1 '?') * (v0 :: vs').length : Nat) : Int))
                  (parseIntChar (type.getD 1 '?'))).length
              (if (decide (type.getD 2 '?' = 'l') && le || decide (type.getD 2 '?' = 'b') && !le ||
                  decide (parseIntChar (type.getD 1 '?') = 1)) = true then
                jsSubarray (encode_number_array le (v0 :: vs') type) ((0 : Nat) : Int)
                  ((0 + parseIntChar (type.getD 1 '?') * (v0 :: vs').length : Nat) : Int)
              else
                swapEndianessFast
                  (jsSubarray (encode_number_array le (v0 :: vs') type) ((0 : Nat) : Int)
                    ((0 + parseIntChar (type.getD 1 '?') * (v0 :: vs').length : Nat) : Int))
                  (parseIntChar (type.getD 1 '?')))),
            (jsSubarray (encode_number_array le (v0 :: vs') type) ((0 : Nat) : Int)
              ((0 + parseIntChar (type.getD 1 '?') * (v0 :: vs').length : Nat) : Int)).length)) := rfl
    rw [if_neg hsv] at hdecdef
    have hsub : jsSubarray (encode_number_array le (v0 :: vs') type) ((0 : Nat) : Int)
        ((0 + parseIntChar (type.getD 1 '?') * (v0 :: vs').length : Nat) : Int) =
        encode_number_array le (v0 :: vs') type := by
      have hfull : 0 + parseIntChar (type.getD 1 '?') * (v0 :: vs').length =
          (encode_number_array le (v0 :: vs') type).length := by
        rw [hBlen, hbs]
        omega
      rw [hfull]
      exact jsSubarray_full _
    rw [hsub] at hdecdef
    have hsw : (if (decide (type.getD 2 '?' = 'l') && le || decide (type.getD 2 '?' = 'b') && !le ||
        decide (parseIntChar (type.getD 1 '?') = 1)) = true then
          encode_number_array le (v0 :: vs') type
        else
          swapEndianessFast (encode_number_array le (v0 :: vs') type)
            (parseIntChar (type.getD 1 '?'))) =
        (List.map (cellBytes le (typed_array_constructor_of type).bytes_per_element)
          (List.map (typed_array_constructor_of type).store (v0 :: vs'))).flatten := by
      by_cases hNB : (decide (type.getD 2 '?' = 'l') && le || decide (type.getD 2 '?' = 'b') && !le ||
          decide (parseIntChar (type.getD 1 '?') = 1)) = true
      · rw [if_pos hNB, henc2, if_pos hNB]
      · rw [if_neg hNB, henc2, if_neg hNB]
        apply swapFast_swapFast
        · omega
        · rw [flatten_cellBytes_length, List.length_map, ← hbs]
          exact Dvd.intro _ rfl
    rw [hsw] at hdecdef
    rw [hdecdef]
    rw [groupCells_flatten le _ hbpe1 _ _ (by
        rw [flatten_cellBytes_length, List.length_map]
        exact Nat.le_mul_of_pos_left _ (by omega)) hps]
    rw [hload]

/-! ## Dispatcher-level round-trip helpers -/

theorem wtn_bounds (lo hi x : Int) (h : (decide (lo ≤ x) && decide (x ≤ hi)) = true) :
    lo ≤ x ∧ x ≤ hi := by
  rw [Bool.and_eq_true] at h
  exact ⟨of_decide_eq_true h.1, of_decide_eq_true h.2⟩

theorem num_of_wellTyped (type : List Char) (v : JSPrim)
    (h1 : type ≠ "bool".toList) (h2 : type ≠ "cstr".toList) (h3 : type ≠ "str".toList)
    (h4 : type ≠ "bytes".toList) (h5 : ¬("[]".toList.isSuffixOf type = true))
    (hv : wellTyped type v = true) :
    ∃ x, v = .num x ∧ wellTypedNum type x = true := by
  unfold wellTyped at hv
  rw [if_neg h1, if_neg h2, if_neg h3, if_neg h4, if_neg h5] at hv
  cases v with
  | num x => exact ⟨x, rfl, hv⟩
  | bool b => exact Bool.noConfusion hv
  | numArr a => exact Bool.noConfusion hv
  | str s => exact Bool.noConfusion hv
  | bytes b => exact Bool.noConfusion hv

theorem numArr_of_wellTyped (type : List Char) (v : JSPrim)
    (h1 : type ≠ "bool".toList) (h2 : type ≠ "cstr".toList) (h3 : type ≠ "str".toList)
    (h4 : type ≠ "bytes".toList) (h5 : "[]".toList.isSuffixOf type = true)
    (hv : wellTyped type v = true) :
    ∃ vs, v = .numArr vs ∧ ∀ x ∈ vs, wellTypedNum type x = true := by
  unfold wellTyped at hv
  rw [if_neg h1, if_neg h2, if_neg h3, if_neg h4, if_pos h5] at hv
  cases v with
  | numArr vs => exact ⟨vs, rfl, List.all_eq_true.mp hv⟩
  | bool b => exact Bool.noConfusion hv
  | num x => exact Bool.noConfusion hv
  | str s => exact Bool.noConfusion hv
  | bytes b => exact Bool.noConfusion hv

theorem rt_num_full (le : Bool) (type : List Char) (v : JSPrim)
    (h1 : type ≠ "bool".toList) (h2 : type ≠ "cstr".toList) (h3 : type ≠ "str".toList)
    (h4 : type ≠ "bytes".toList) (h5 : ¬("[]".toList.isSuffixOf type = true))
    (hv : wellTyped type v = true)
    (hrt : ∀ x : Int, wellTypedNum type x = true →
      decode_number_array le (encode_number_array le [x] type) 0 type (some 1) =
        ([x], (encode_number_array le [x] type).length)) :
    unpack le type (pack le type v) 0 (decodeArgs type v) = (v, (pack le type v).length) := by
  obtain ⟨x, rfl, hx⟩ := num_of_wellTyped type v h1 h2 h3 h4 h5 hv
  have hp : pack le type (.num x) = encode_number_array le [x] type := by
    unfold pack
    rw [if_neg h1, if_neg h2, if_neg h3, if_neg h4, if_neg h5]
    rfl
  have hd : decodeArgs type (.num x) = none := by
    unfold decodeArgs
    rw [if_neg h3, if_neg h4, if_neg h5]
  have hu : unpack le type (encode_number_array le [x] type) 0 none =
      (.num ((decode_number_array le (encode_number_array le [x] type) 0 type
        (some 1)).1.getD 0 0),
       (decode_number_array le (encode_number_array le [x] type) 0 type (some 1)).2) := by
    unfold unpack
    rw [if_neg h1, if_neg h2, if_neg h3, if_neg h4, if_neg h5]
    rfl
  rw [hp, hd, hu, hrt x hx]
  rfl

theorem rt_numArr_full (le : Bool) (type : List Char) (v : JSPrim)
    (h1 : type ≠ "bool".toList) (h2 : type ≠ "cstr".toList) (h3 : type ≠ "str".toList)
    (h4 : type ≠ "bytes".toList) (h5 : "[]".toList.isSuffixOf type = true)
    (hv : wellTyped type v = true)
    (hrt : ∀ vs : List Int, (∀ x ∈ vs, wellTypedNum type x = true) →
      decode_number_array le (encode_number_array le vs type) 0 type (some vs.length) =
        (vs, (encode_number_array le vs type).length)) :
    unpack le type (pack le type v) 0 (decodeArgs type v) = (v, (pack le type v).length) := by
  obtain ⟨vs, rfl, hws⟩ := numArr_of_wellTyped type v h1 h2 h3 h4 h5 hv
  have hp : pack le type (.numArr vs) = encode_number_array le vs type := by
    unfold pack
    rw [if_neg h1, if_neg h2, if_neg h3, if_neg h4, if_pos h5]
    rfl
  have hd : decodeArgs type (.numArr vs) = some vs.length := by
    unfold decodeArgs
    rw [if_neg h3, if_neg h4, if_pos h5]
    rfl
  have hu : unpack le type (encode_number_array le vs type) 0 (some vs.length) =
      (.numArr (decode_number_array le (encode_number_array le vs type) 0 type
        (some vs.length)).1,
       (decode_number_array le (encode_number_array le vs type) 0 type (some vs.length)).2) := by
    unfold unpack
    rw [if_neg h1, if_neg h2, if_neg h3, if_neg h4, if_pos h5]
  rw [hp, hd, hu, hrt vs hws]

/-! ## Write/read conversions of the typed-array constructors -/

theorem uint8_store_load (x : Int) (h0 : 0 ≤ x) (h1 : x ≤ 255) :
    uint8Ctor.load (uint8Ctor.store x) = x ∧ uint8Ctor.store x < 256 ^ 1 := by
  constructor
  · show ((x % 256).toNat : Int) = x
    omega
  · show (x % 256).toNat < 256 ^ 1
    have h : (256 : Nat) ^ 1 = 256 := by norm_num
    omega

theorem uint8Clamped_store_load (x : Int) (h0 : 0 ≤ x) (h1 : x ≤ 255) :
    uint8ClampedCtor.load (uint8ClampedCtor.store x) = x ∧
      uint8ClampedCtor.store x < 256 ^ 1 := by
  have hc : max 0 (min 255 x) = x := by
    rw [min_eq_right h1, max_eq_right h0]
  constructor
  · show ((max 0 (min 255 x)).toNat : Int) = x
    rw [hc]
    omega
  · show (max 0 (min 255 x)).toNat < 256 ^ 1
    rw [hc]
    have h : (256 : Nat) ^ 1 = 256 := by norm_num
    omega

theorem uint16_store_load (x : Int) (h0 : 0 ≤ x) (h1 : x ≤ 2 ^ 16 - 1) :
    uint16Ctor.load (uint16Ctor.store x) = x ∧ uint16Ctor.store x < 256 ^ 2 := by
  constructor
  · show ((x % 2 ^ 16).toNat : Int) = x
    omega
  · show (x % 2 ^ 16).toNat < 256 ^ 2
    have h : (256 : Nat) ^ 2 = 65536 := by norm_num
    have h2 : (2 : Int) ^ 16 = 65536 := by norm_num
    omega

theorem uint32_store_load (x : Int) (h0 : 0 ≤ x) (h1 : x ≤ 2 ^ 32 - 1) :
    uint32Ctor.load (uint32Ctor.store x) = x ∧ uint32Ctor.store x < 256 ^ 4 := by
  constructor
  · show ((x % 2 ^ 32).toNat : Int) = x
    omega
  · show (x % 2 ^ 32).toNat < 256 ^ 4
    have h : (256 : Nat) ^ 4 = 4294967296 := by norm_num
    have h2 : (2 : Int) ^ 32 = 4294967296 := by norm_num
    omega

theorem int8_store_load (x : Int) (h0 : -128 ≤ x) (h1 : x ≤ 127) :
    int8Ctor.load (int8Ctor.store x) = x ∧ int8Ctor.store x < 256 ^ 1 := by
  constructor
  · show (if (x % 256).toNat < 128 then (((x % 256).toNat : Nat) : Int)
      else (((x % 256).toNat : Nat) : Int) - 256) = x
    by_cases h : (x % 256).toNat < 128
    · rw [if_pos h]
      omega
    · rw [if_neg h]
      omega
  · show (x % 256).toNat < 256 ^ 1
    have h : (256 : Nat) ^ 1 = 256 := by norm_num
    omega

theorem int16_store_load (x : Int) (h0 : -(2 ^ 15) ≤ x) (h1 : x ≤ 2 ^ 15 - 1) :
    int16Ctor.load (int16Ctor.store x) = x ∧ int16Ctor.store x < 256 ^ 2 := by
  have h2 : (2 : Int) ^ 15 = 32768 := by norm_num
  have h3 : (2 : Int) ^ 16 = 65536 := by norm_num
  have e1 : int16Ctor.store x = (x % 2 ^ 16).toNat := rfl
  have e2 : ∀ p : Nat, int16Ctor.load p =
      if p < 2 ^ 15 then (p : Int) else (p : Int) - 2 ^ 16 := fun p => rfl
  constructor
  · rw [e1, e2]
    by_cases h : (x % 2 ^ 16).toNat < 2 ^ 15
    · rw [if_pos h]
      have h4 : (2 : Nat) ^ 15 = 32768 := by norm_num
      omega
    · rw [if_neg h]
      have h4 : (2 : Nat) ^ 15 = 32768 := by norm_num
      omega
  · show (x % 2 ^ 16).toNat < 256 ^ 2
    have h : (256 : Nat) ^ 2 = 65536 := by norm_num
    omega

theorem int32_store_load (x : Int) (h0 : -(2 ^ 31) ≤ x) (h1 : x ≤ 2 ^ 31 - 1) :
    int32Ctor.load (int32Ctor.store x) = x ∧ int32Ctor.store x < 256 ^ 4 := by
  have h2 : (2 : Int) ^ 31 = 2147483648 := by norm_num
  have h3 : (2 : Int) ^ 32 = 4294967296 := by norm_num
  have e1 : int32Ctor.store x = (x % 2 ^ 32).toNat := rfl
  have e2 : ∀ p : Nat, int32Ctor.load p =
      if p < 2 ^ 31 then (p : Int) else (p : Int) - 2 ^ 32 := fun p => rfl
  constructor
  · rw [e1, e2]
    by_cases h : (x % 2 ^ 32).toNat < 2 ^ 31
    · rw [if_pos h]
      have h4 : (2 : Nat) ^ 31 = 2147483648 := by norm_num
      omega
    · rw [if_neg h]
      have h4 : (2 : Nat) ^ 31 = 2147483648 := by norm_num
      omega
  · show (x % 2 ^ 32).toNat < 256 ^ 4
    have h : (256 : Nat) ^ 4 = 4294967296 := by norm_num
    omega

theorem float32_store_load (x : Int) (h0 : 0 ≤ x) (h1 : x ≤ 2 ^ 32 - 1) :
    float32Ctor.load (float32Ctor.store x) = x ∧ float32Ctor.store x < 256 ^ 4 := by
  constructor
  · show ((x % 2 ^ 32).toNat : Int) = x
    omega
  · show (x % 2 ^ 32).toNat < 256 ^ 4
    have h : (256 : Nat) ^ 4 = 4294967296 := by norm_num
    have h2 : (2 : Int) ^ 32 = 4294967296 := by norm_num
    omega

theorem float64_store_load (x : Int) (h0 : 0 ≤ x) (h1 : x ≤ 2 ^ 64 - 1) :
    float64Ctor.load (float64Ctor.store x) = x ∧ float64Ctor.store x < 256 ^ 8 := by
  constructor
  · show ((x % 2 ^ 64).toNat : Int) = x
    omega
  · show (x % 2 ^ 64).toNat < 256 ^ 8
    have h : (256 : Nat) ^ 8 = 18446744073709551616 := by norm_num
    have h2 : (2 : Int) ^ 64 = 18446744073709551616 := by norm_num
    omega

/-! ## Round trips of the fixed tags -/

theorem rt_bool (le : Bool) (v : JSPrim) (hv : wellTyped "bool".toList v = true) :
    unpack le "bool".toList (pack le "bool".toList v) 0 (decodeArgs "bool".toList v) =
      (v, (pack le "bool".toList v).length) := by
  cases v with
  | bool b =>
    cases b with
    | true => rfl
    | false => rfl
  | num x => exact Bool.noConfusion hv
  | numArr a => exact Bool.noConfusion hv
  | str s => exact Bool.noConfusion hv
  | bytes b => exact Bool.noConfusion hv

theorem decode_cstr_encode (s : List Nat) (h0 : (0 : Nat) ∉ s) :
    decode_cstr (s ++ [0]) 0 = (s, s.length + 1) := by
  have hfind : (s ++ [0]).findIdx? (· = 0) = some s.length := by
    apply findIdx_zero_eq_some
    · rw [List.length_append]
      simp
    · rw [List.getD_append_right _ _ 0 _ (le_refl _), Nat.sub_self]
      rfl
    · intro i hi
      rw [List.getD_append _ _ 0 i hi]
      rw [List.getD_eq_getElem?_getD, List.getElem?_eq_getElem hi]
      intro hc
      exact h0 (hc ▸ List.getElem_mem hi)
  unfold decode_cstr js_indexOf
  simp only [List.drop_zero, hfind]
  have hidx : ((0 + s.length : Nat) : Int) = ((s.length : Nat) : Int) := by omega
  rw [hidx]
  rw [jsSubarray_natCast (s ++ [0]) 0 s.length (by omega)
    (by rw [List.length_append]; omega)]
  rw [List.drop_zero, Nat.sub_zero]
  have htake : (s ++ [0]).take s.length = s := List.take_left s [0]
  rw [htake]

theorem rt_cstr (le : Bool) (v : JSPrim) (hv : wellTyped "cstr".toList v = true) :
    unpack le "cstr".toList (pack le "cstr".toList v) 0 (decodeArgs "cstr".toList v) =
      (v, (pack le "cstr".toList v).length) := by
  cases v with
  | str s =>
    have hv2 : (s.all (· < 256) && !s.contains 0) = true := hv
    rw [Bool.and_eq_true] at hv2
    have hcz : s.contains 0 = false := by
      have h2 := hv2.2
      rwa [Bool.not_eq_true'] at h2
    have h0 : (0 : Nat) ∉ s := by
      intro hm
      have he : s.contains 0 = true := by
        show s.elem 0 = true
        rw [List.elem_eq_mem]
        exact decide_eq_true hm
      rw [he] at hcz
      exact Bool.noConfusion hcz
    have hp : pack le "cstr".toList (.str s) = s ++ [0] := rfl
    have hd : decodeArgs "cstr".toList (.str s) = none := rfl
    have hu : unpack le "cstr".toList (s ++ [0]) 0 none =
        (.str (decode_cstr (s ++ [0]) 0).1, (decode_cstr (s ++ [0]) 0).2) := rfl
    rw [hp, hd, hu, decode_cstr_encode s h0, List.length_append]
    rfl
  | bool b => exact Bool.noConfusion hv
  | num x => exact Bool.noConfusion hv
  | numArr a => exact Bool.noConfusion hv
  | bytes b => exact Bool.noConfusion hv

theorem rt_str (le : Bool) (v : JSPrim) (hv : wellTyped "str".toList v = true) :
    unpack le "str".toList (pack le "str".toList v) 0 (decodeArgs "str".toList v) =
      (v, (pack le "str".toList v).length) := by
  cases v with
  | str s =>
    have h : jsSubarray s ((0 : Nat) : Int) ((0 + s.length : Nat) : Int) = s := by
      rw [show (0 + s.length) = s.length from by omega]
      exact jsSubarray_full s
    show (JSPrim.str (jsSubarray s ((0 : Nat) : Int) ((0 + s.length : Nat) : Int)),
        (jsSubarray s ((0 : Nat) : Int) ((0 + s.length : Nat) : Int)).length) =
      (JSPrim.str s, s.length)
    rw [h]
  | bool b => exact Bool.noConfusion hv
  | num x => exact Bool.noConfusion hv
  | numArr a => exact Bool.noConfusion hv
  | bytes b => exact Bool.noConfusion hv

theorem rt_bytes (le : Bool) (v : JSPrim) (hv : wellTyped "bytes".toList v = true) :
    unpack le "bytes".toList (pack le "bytes".toList v) 0 (decodeArgs "bytes".toList v) =
      (v, (pack le "bytes".toList v).length) := by
  cases v with
  | bytes s =>
    have h : jsSubarray s ((0 : Nat) : Int) ((0 + s.length : Nat) : Int) = s := by
      rw [show (0 + s.length) = s.length from by omega]
      exact jsSubarray_full s
    show (JSPrim.bytes (jsSubarray s ((0 : Nat) : Int) ((0 + s.length : Nat) : Int)),
        (jsSubarray s ((0 : Nat) : Int) ((0 + s.length : Nat) : Int)).length) =
      (JSPrim.bytes s, s.length)
    rw [h]
  | bool b => exact Bool.noConfusion hv
  | num x => exact Bool.noConfusion hv
  | numArr a => exact Bool.noConfusion hv
  | str s => exact Bool.noConfusion hv

/-! ## C1: the full pack/unpack round trip -/

theorem rt_uvar_hrt (vs : List Int) (h : ∀ x ∈ vs, 0 ≤ x ∧ x < 2 ^ 31) :
    decode_uvar_array (encode_uvar_array vs) 0 (some vs.length) =
      (vs, (encode_uvar_array vs).length) := by
  have h1 := decode_uvar_array_encode [] [] vs h
  simpa using h1

theorem rt_ivar_hrt (vs : List Int) (h : ∀ x ∈ vs, x.natAbs < 2 ^ 31) :
    decode_ivar_array (encode_ivar_array vs) 0 (some vs.length) =
      (vs, (encode_ivar_array vs).length) := by
  have h1 := decode_ivar_array_encode [] [] vs h
  simpa using h1

/-- C1.  For every primitive type descriptor in the codec's vocabulary
(`bool`, `cstr`, `str`, `bytes`, every fixed-width numeric kind with or
without an endianness suffix, `uv`, `iv`, and the array form of each numeric
kind) and every well-typed value, unpacking the packed bytes from offset 0
with the matching extra argument returns the pair of the original value and
the exact byte length of the packed representation, on either host
endianness. -/
theorem pack_unpack_round_trip (le : Bool) (t : List Char) (ht : t ∈ primitiveKinds)
    (v : JSPrim) (hv : wellTyped t v = true) :
    unpack le t (pack le t v) 0 (decodeArgs t v) = (v, (pack le t v).length) := by
  have hK : primitiveKinds =
     ["bool".toList,
      "cstr".toList,
      "str".toList,
      "bytes".toList,
      "u1".toList,
      "u1[]".toList,
      "u1c".toList,
      "u1c[]".toList,
      "u2".toList,
      "u2[]".toList,
      "u2l".toList,
      "u2l[]".toList,
      "u2b".toList,
      "u2b[]".toList,
      "u4".toList,
      "u4[]".toList,
      "u4l".toList,
      "u4l[]".toList,
      "u4b".toList,
      "u4b[]".toList,
      "i1".toList,
      "i1[]".toList,
      "i2".toList,
      "i2[]".toList,
      "i2l".toList,
      "i2l[]".toList,
      "i2b".toList,
      "i2b[]".toList,
      "i4".toList,
      "i4[]".toList,
      "i4l".toList,
      "i4l[]".toList,
      "i4b".toList,
      "i4b[]".toList,
      "f4".toList,
      "f4[]".toList,
      "f4l".toList,
      "f4l[]".toList,
      "f4b".toList,
      "f4b[]".toList,
      "f8".toList,
      "f8[]".toList,
      "f8l".toList,
      "f8l[]".toList,
      "f8b".toList,
      "f8b[]".toList,
      "uv".toList,
      "uv[]".toList,
      "iv".toList,
      "iv[]".toList] := rfl
  rw [hK] at ht
  simp only [List.mem_cons, List.not_mem_nil, or_false] at ht
  rcases ht with rfl | rfl | rfl | rfl | rfl | rfl | rfl | rfl | rfl | rfl | rfl | rfl | rfl | rfl | rfl | rfl | rfl | rfl | rfl | rfl | rfl | rfl | rfl | rfl | rfl | rfl | rfl | rfl | rfl | rfl | rfl | rfl | rfl | rfl | rfl | rfl | rfl | rfl | rfl | rfl | rfl | rfl | rfl | rfl | rfl | rfl | rfl | rfl | rfl | rfl
  · exact rt_bool le v hv
  · exact rt_cstr le v hv
  · exact rt_str le v hv
  · exact rt_bytes le v hv
  · refine rt_num_full le _ v (by decide) (by decide) (by decide) (by decide) (by decide)
      hv ?_
    intro x hx
    refine rt_fw_arr le _ [x] (by decide) (by decide) (by decide) (by decide) ?_
    intro y hy
    rw [List.mem_singleton] at hy
    subst hy
    have hb := wtn_bounds (0) (255) y hx
    exact uint8_store_load y hb.1 hb.2
  · refine rt_numArr_full le _ v (by decide) (by decide) (by decide) (by decide) (by decide)
      hv ?_
    intro vs hws
    refine rt_fw_arr le _ vs (by decide) (by decide) (by decide) (by decide) ?_
    intro y hy
    have hb := wtn_bounds (0) (255) y (hws y hy)
    exact uint8_store_load y hb.1 hb.2
  · refine rt_num_full le _ v (by decide) (by decide) (by decide) (by decide) (by decide)
      hv ?_
    intro x hx
    refine rt_fw_arr le _ [x] (by decide) (by decide) (by decide) (by decide) ?_
    intro y hy
    rw [List.mem_singleton] at hy
    subst hy
    have hb := wtn_bounds (0) (255) y hx
    exact uint8Clamped_store_load y hb.1 hb.2
  · refine rt_numArr_full le _ v (by decide) (by decide) (by decide) (by decide) (by decide)
      hv ?_
    intro vs hws
    refine rt_fw_arr le _ vs (by decide) (by decide) (by decide) (by decide) ?_
    intro y hy
    have hb := wtn_bounds (0) (255) y (hws y hy)
    exact uint8Clamped_store_load y hb.1 hb.2
  · refine rt_num_full le _ v (by decide) (by decide) (by decide) (by decide) (by decide)
      hv ?_
    intro x hx
    refine rt_fw_arr le _ [x] (by decide) (by decide) (by decide) (by decide) ?_
    intro y hy
    rw [List.mem_singleton] at hy
    subst hy
    have hb := wtn_bounds (0) (2 ^ 16 - 1) y hx
    exact uint16_store_load y hb.1 hb.2
  · refine rt_numArr_full le _ v (by decide) (by decide) (by decide) (by decide) (by decide)
      hv ?_
    intro vs hws
    refine rt_fw_arr le _ vs (by decide) (by decide) (by decide) (by decide) ?_
    intro y hy
    have hb := wtn_bounds (0) (2 ^ 16 - 1) y (hws y hy)
    exact uint16_store_load y hb.1 hb.2
  · refine rt_num_full le _ v (by decide) (by decide) (by decide) (by decide) (by decide)
      hv ?_
    intro x hx
    refine rt_fw_arr le _ [x] (by decide) (by decide) (by decide) (by decide) ?_
    intro y hy
    rw [List.mem_singleton] at hy
    subst hy
    have hb := wtn_bounds (0) (2 ^ 16 - 1) y hx
    exact uint16_store_load y hb.1 hb.2
  · refine rt_numArr_full le _ v (by decide) (by decide) (by decide) (by decide) (by decide)
      hv ?_
    intro vs hws
    refine rt_fw_arr le _ vs (by decide) (by decide) (by decide) (by decide) ?_
    intro y hy
    have hb := wtn_bounds (0) (2 ^ 16 - 1) y (hws y hy)
    exact uint16_store_load y hb.1 hb.2
  · refine rt_num_full le _ v (by decide) (by decide) (by decide) (by decide) (by decide)
      hv ?_
    intro x hx
    refine rt_fw_arr le _ [x] (by decide) (by decide) (by decide) (by decide) ?_
    intro y hy
    rw [List.mem_singleton] at hy
    subst hy
    have hb := wtn_bounds (0) (2 ^ 16 - 1) y hx
    exact uint16_store_load y hb.1 hb.2
  · refine rt_numArr_full le _ v (by decide) (by decide) (by decide) (by decide) (by decide)
      hv ?_
    intro vs hws
    refine rt_fw_arr le _ vs (by decide) (by decide) (by decide) (by decide) ?_
    intro y hy
    have hb := wtn_bounds (0) (2 ^ 16 - 1) y (hws y hy)
    exact uint16_store_load y hb.1 hb.2
  · refine rt_num_full le _ v (by decide) (by decide) (by decide) (by decide) (by decide)
      hv ?_
    intro x hx
    refine rt_fw_arr le _ [x] (by decide) (by decide) (by decide) (by decide) ?_
    intro y hy
    rw [List.mem_singleton] at hy
    subst hy
    have hb := wtn_bounds (0) (2 ^ 32 - 1) y hx
    exact uint32_store_load y hb.1 hb.2
  · refine rt_numArr_full le _ v (by decide) (by decide) (by decide) (by decide) (by decide)
      hv ?_
    intro vs hws
    refine rt_fw_arr le _ vs (by decide) (by decide) (by decide) (by decide) ?_
    intro y hy
    have hb := wtn_bounds (0) (2 ^ 32 - 1) y (hws y hy)
    exact uint32_store_load y hb.1 hb.2
  · refine rt_num_full le _ v (by decide) (by decide) (by decide) (by decide) (by decide)
      hv ?_
    intro x hx
    refine rt_fw_arr le _ [x] (by decide) (by decide) (by decide) (by decide) ?_
    intro y hy
    rw [List.mem_singleton] at hy
    subst hy
    have hb := wtn_bounds (0) (2 ^ 32 - 1) y hx
    exact uint32_store_load y hb.1 hb.2
  · refine rt_numArr_full le _ v (by decide) (by decide) (by decide) (by decide) (by decide)
      hv ?_
    intro vs hws
    refine rt_fw_arr le _ vs (by decide) (by decide) (by decide) (by decide) ?_
    intro y hy
    have hb := wtn_bounds (0) (2 ^ 32 - 1) y (hws y hy)
    exact uint32_store_load y hb.1 hb.2
  · refine rt_num_full le _ v (by decide) (by decide) (by decide) (by decide) (by decide)
      hv ?_
    intro x hx
    refine rt_fw_arr le _ [x] (by decide) (by decide) (by decide) (by decide) ?_
    intro y hy
    rw [List.mem_singleton] at hy
    subst hy
    have hb := wtn_bounds (0) (2 ^ 32 - 1) y hx
    exact uint32_store_load y hb.1 hb.2
  · refine rt_numArr_full le _ v (by decide) (by decide) (by decide) (by decide) (by decide)
      hv ?_
    intro vs hws
    refine rt_fw_arr le _ vs (by decide) (by decide) (by decide) (by decide) ?_
    intro y hy
    have hb := wtn_bounds (0) (2 ^ 32 - 1) y (hws y hy)
    exact uint32_store_load y hb.1 hb.2
  · refine rt_num_full le _ v (by decide) (by decide) (by decide) (by decide) (by decide)
      hv ?_
    intro x hx
    refine rt_fw_arr le _ [x] (by decide) (by decide) (by decide) (by decide) ?_
    intro y hy
    rw [List.mem_singleton] at hy
    subst hy
    have hb := wtn_bounds (-128) (127) y hx
    exact int8_store_load y hb.1 hb.2
  · refine rt_numArr_full le _ v (by decide) (by decide) (by decide) (by decide) (by decide)
      hv ?_
    intro vs hws
    refine rt_fw_arr le _ vs (by decide) (by decide) (by decide) (by decide) ?_
    intro y hy
    have hb := wtn_bounds (-128) (127) y (hws y hy)
    exact int8_store_load y hb.1 hb.2
  · refine rt_num_full le _ v (by decide) (by decide) (by decide) (by decide) (by decide)
      hv ?_
    intro x hx
    refine rt_fw_arr le _ [x] (by decide) (by decide) (by decide) (by decide) ?_
    intro y hy
    rw [List.mem_singleton] at hy
    subst hy
    have hb := wtn_bounds (-(2 ^ 15)) (2 ^ 15 - 1) y hx
    exact int16_store_load y hb.1 hb.2
  · refine rt_numArr_full le _ v (by decide) (by decide) (by decide) (by decide) (by decide)
      hv ?_
    intro vs hws
    refine rt_fw_arr le _ vs (by decide) (by decide) (by decide) (by decide) ?_
    intro y hy
    have hb := wtn_bounds (-(2 ^ 15)) (2 ^ 15 - 1) y (hws y hy)
    exact int16_store_load y hb.1 hb.2
  · refine rt_num_full le _ v (by decide) (by decide) (by decide) (by decide) (by decide)
      hv ?_
    intro x hx
    refine rt_fw_arr le _ [x] (by decide) (by decide) (by decide) (by decide) ?_
    intro y hy
    rw [List.mem_singleton] at hy
    subst hy
    have hb := wtn_bounds (-(2 ^ 15)) (2 ^ 15 - 1) y hx
    exact int16_store_load y hb.1 hb.2
  · refine rt_numArr_full le _ v (by decide) (by decide) (by decide) (by decide) (by decide)
      hv ?_
    intro vs hws
    refine rt_fw_arr le _ vs (by decide) (by decide) (by decide) (by decide) ?_
    intro y hy
    have hb := wtn_bounds (-(2 ^ 15)) (2 ^ 15 - 1) y (hws y hy)
    exact int16_store_load y hb.1 hb.2
  · refine rt_num_full le _ v (by decide) (by decide) (by decide) (by decide) (by decide)
      hv ?_
    intro x hx
    refine rt_fw_arr le _ [x] (by decide) (by decide) (by decide) (by decide) ?_
    intro y hy
    rw [List.mem_singleton] at hy
    subst hy
    have hb := wtn_bounds (-(2 ^ 15)) (2 ^ 15 - 1) y hx
    exact int16_store_load y hb.1 hb.2
  · refine rt_numArr_full le _ v (by decide) (by decide) (by decide) (by decide) (by decide)
      hv ?_
    intro vs hws
    refine rt_fw_arr le _ vs (by decide) (by decide) (by decide) (by decide) ?_
    intro y hy
    have hb := wtn_bounds (-(2 ^ 15)) (2 ^ 15 - 1) y (hws y hy)
    exact int16_store_load y hb.1 hb.2
  · refine rt_num_full le _ v (by decide) (by decide) (by decide) (by decide) (by decide)
      hv ?_
    intro x hx
    refine rt_fw_arr le _ [x] (by decide) (by decide) (by decide) (by decide) ?_
    intro y hy
    rw [List.mem_singleton] at hy
    subst hy
    have hb := wtn_bounds (-(2 ^ 31)) (2 ^ 31 - 1) y hx
    exact int32_store_load y hb.1 hb.2
  · refine rt_numArr_full le _ v (by decide) (by decide) (by decide) (by decide) (by decide)
      hv ?_
    intro vs hws
    refine rt_fw_arr le _ vs (by decide) (by decide) (by decide) (by decide) ?_
    intro y hy
    have hb := wtn_bounds (-(2 ^ 31)) (2 ^ 31 - 1) y (hws y hy)
    exact int32_store_load y hb.1 hb.2
  · refine rt_num_full le _ v (by decide) (by decide) (by decide) (by decide) (by decide)
      hv ?_
    intro x hx
    refine rt_fw_arr le _ [x] (by decide) (by decide) (by decide) (by decide) ?_
    intro y hy
    rw [List.mem_singleton] at hy
    subst hy
    have hb := wtn_bounds (-(2 ^ 31)) (2 ^ 31 - 1) y hx
    exact int32_store_load y hb.1 hb.2
  · refine rt_numArr_full le _ v (by decide) (by decide) (by decide) (by decide) (by decide)
      hv ?_
    intro vs hws
    refine rt_fw_arr le _ vs (by decide) (by decide) (by decide) (by decide) ?_
    intro y hy
    have hb := wtn_bounds (-(2 ^ 31)) (2 ^ 31 - 1) y (hws y hy)
    exact int32_store_load y hb.1 hb.2
  · refine rt_num_full le _ v (by decide) (by decide) (by decide) (by decide) (by decide)
      hv ?_
    intro x hx
    refine rt_fw_arr le _ [x] (by decide) (by decide) (by decide) (by decide) ?_
    intro y hy
    rw [List.mem_singleton] at hy
    subst hy
    have hb := wtn_bounds (-(2 ^ 31)) (2 ^ 31 - 1) y hx
    exact int32_store_load y hb.1 hb.2
  · refine rt_numArr_full le _ v (by decide) (by decide) (by decide) (by decide) (by decide)
      hv ?_
    intro vs hws
    refine rt_fw_arr le _ vs (by decide) (by decide) (by decide) (by decide) ?_
    intro y hy
    have hb := wtn_bounds (-(2 ^ 31)) (2 ^ 31 - 1) y (hws y hy)
    exact int32_store_load y hb.1 hb.2
  · refine rt_num_full le _ v (by decide) (by decide) (by decide) (by decide) (by decide)
      hv ?_
    intro x hx
    refine rt_fw_arr le _ [x] (by decide) (by decide) (by decide) (by decide) ?_
    intro y hy
    rw [List.mem_singleton] at hy
    subst hy
    have hb := wtn_bounds (0) (2 ^ 32 - 1) y hx
    exact float32_store_load y hb.1 hb.2
  · refine rt_numArr_full le _ v (by decide) (by decide) (by decide) (by decide) (by decide)
      hv ?_
    intro vs hws
    refine rt_fw_arr le _ vs (by decide) (by decide) (by decide) (by decide) ?_
    intro y hy
    have hb := wtn_bounds (0) (2 ^ 32 - 1) y (hws y hy)
    exact float32_store_load y hb.1 hb.2
  · refine rt_num_full le _ v (by decide) (by decide) (by decide) (by decide) (by decide)
      hv ?_
    intro x hx
    refine rt_fw_arr le _ [x] (by decide) (by decide) (by decide) (by decide) ?_
    intro y hy
    rw [List.mem_singleton] at hy
    subst hy
    have hb := wtn_bounds (0) (2 ^ 32 - 1) y hx
    exact float32_store_load y hb.1 hb.2
  · refine rt_numArr_full le _ v (by decide) (by decide) (by decide) (by decide) (by decide)
      hv ?_
    intro vs hws
    refine rt_fw_arr le _ vs (by decide) (by decide) (by decide) (by decide) ?_
    intro y hy
    have hb := wtn_bounds (0) (2 ^ 32 - 1) y (hws y hy)
    exact float32_store_load y hb.1 hb.2
  · refine rt_num_full le _ v (by decide) (by decide) (by decide) (by decide) (by decide)
      hv ?_
    intro x hx
    refine rt_fw_arr le _ [x] (by decide) (by decide) (by decide) (by decide) ?_
    intro y hy
    rw [List.mem_singleton] at hy
    subst hy
    have hb := wtn_bounds (0) (2 ^ 32 - 1) y hx
    exact float32_store_load y hb.1 hb.2
  · refine rt_numArr_full le _ v (by decide) (by decide) (by decide) (by decide) (by decide)
      hv ?_
    intro vs hws
    refine rt_fw_arr le _ vs (by decide) (by decide) (by decide) (by decide) ?_
    intro y hy
    have hb := wtn_bounds (0) (2 ^ 32 - 1) y (hws y hy)
    exact float32_store_load y hb.1 hb.2
  · refine rt_num_full le _ v (by decide) (by decide) (by decide) (by decide) (by decide)
      hv ?_
    intro x hx
    refine rt_fw_arr le _ [x] (by decide) (by decide) (by decide) (by decide) ?_
    intro y hy
    rw [List.mem_singleton] at hy
    subst hy
    have hb := wtn_bounds (0) (2 ^ 64 - 1) y hx
    exact float64_store_load y hb.1 hb.2
  · refine rt_numArr_full le _ v (by decide) (by decide) (by decide) (by decide) (by decide)
      hv ?_
    intro vs hws
    refine rt_fw_arr le _ vs (by decide) (by decide) (by decide) (by decide) ?_
    intro y hy
    have hb := wtn_bounds (0) (2 ^ 64 - 1) y (hws y hy)
    exact float64_store_load y hb.1 hb.2
  · refine rt_num_full le _ v (by decide) (by decide) (by decide) (by decide) (by decide)
      hv ?_
    intro x hx
    refine rt_fw_arr le _ [x] (by decide) (by decide) (by decide) (by decide) ?_
    intro y hy
    rw [List.mem_singleton] at hy
    subst hy
    have hb := wtn_bounds (0) (2 ^ 64 - 1) y hx
    exact float64_store_load y hb.1 hb.2
  · refine rt_numArr_full le _ v (by decide) (by decide) (by decide) (by decide) (by decide)
      hv ?_
    intro vs hws
    refine rt_fw_arr le _ vs (by decide) (by decide) (by decide) (by decide) ?_
    intro y hy
    have hb := wtn_bounds (0) (2 ^ 64 - 1) y (hws y hy)
    exact float64_store_load y hb.1 hb.2
  · refine rt_num_full le _ v (by decide) (by decide) (by decide) (by decide) (by decide)
      hv ?_
    intro x hx
    refine rt_fw_arr le _ [x] (by decide) (by decide) (by decide) (by decide) ?_
    intro y hy
    rw [List.mem_singleton] at hy
    subst hy
    have hb := wtn_bounds (0) (2 ^ 64 - 1) y hx
    exact float64_store_load y hb.1 hb.2
  · refine rt_numArr_full le _ v (by decide) (by decide) (by decide) (by decide) (by decide)
      hv ?_
    intro vs hws
    refine rt_fw_arr le _ vs (by decide) (by decide) (by decide) (by decide) ?_
    intro y hy
    have hb := wtn_bounds (0) (2 ^ 64 - 1) y (hws y hy)
    exact float64_store_load y hb.1 hb.2
  · refine rt_num_full le _ v (by decide) (by decide) (by decide) (by decide) (by decide)
      hv ?_
    intro x hx
    have he : encode_number_array le [x] "uv".toList = encode_uvar_array [x] := rfl
    have hdq : decode_number_array le (encode_uvar_array [x]) 0 "uv".toList (some 1) =
        decode_uvar_array (encode_uvar_array [x]) 0 (some 1) := rfl
    rw [he, hdq]
    have hb := wtn_bounds 0 (2 ^ 31 - 1) x hx
    have h1 := rt_uvar_hrt [x] (by
      intro y hy
      rw [List.mem_singleton] at hy
      subst hy
      omega)
    simpa using h1
  · refine rt_numArr_full le _ v (by decide) (by decide) (by decide) (by decide) (by decide)
      hv ?_
    intro vs hws
    have he : encode_number_array le vs "uv[]".toList = encode_uvar_array vs := rfl
    have hdq : decode_number_array le (encode_uvar_array vs) 0 "uv[]".toList (some vs.length) =
        decode_uvar_array (encode_uvar_array vs) 0 (some vs.length) := rfl
    rw [he, hdq]
    apply rt_uvar_hrt
    intro y hy
    have hb := wtn_bounds 0 (2 ^ 31 - 1) y (hws y hy)
    omega
  · refine rt_num_full le _ v (by decide) (by decide) (by decide) (by decide) (by decide)
      hv ?_
    intro x hx
    have he : encode_number_array le [x] "iv".toList = encode_ivar_array [x] := rfl
    have hdq : decode_number_array le (encode_ivar_array [x]) 0 "iv".toList (some 1) =
        decode_ivar_array (encode_ivar_array [x]) 0 (some 1) := rfl
    rw [he, hdq]
    have hb := wtn_bounds (-(2 ^ 31 - 1)) (2 ^ 31 - 1) x hx
    have h1 := rt_ivar_hrt [x] (by
      intro y hy
      rw [List.mem_singleton] at hy
      subst hy
      omega)
    simpa using h1
  · refine rt_numArr_full le _ v (by decide) (by decide) (by decide) (by decide) (by decide)
      hv ?_
    intro vs hws
    have he : encode_number_array le vs "iv[]".toList = encode_ivar_array vs := rfl
    have hdq : decode_number_array le (encode_ivar_array vs) 0 "iv[]".toList (some vs.length) =
        decode_ivar_array (encode_ivar_array vs) 0 (some vs.length) := rfl
    rw [he, hdq]
    apply rt_ivar_hrt
    intro y hy
    have hb := wtn_bounds (-(2 ^ 31 - 1)) (2 ^ 31 - 1) y (hws y hy)
    omega

theorem pack_unpack_round_trip_witness :
    "u2l[]".toList ∈ primitiveKinds ∧
    wellTyped "u2l[]".toList (.numArr [1, 65535]) = true ∧
    unpack false "u2l[]".toList (pack false "u2l[]".toList (.numArr [1, 65535])) 0
      (decodeArgs "u2l[]".toList (.numArr [1, 65535])) =
      (.numArr [1, 65535], (pack false "u2l[]".toList (.numArr [1, 65535])).length) :=
  ⟨by decide, by decide, pack_unpack_round_trip false "u2l[]".toList (by decide)
    (.numArr [1, 65535]) (by decide)⟩

end BytePack
